import Mathlib

/-!
Project references: `model/project_ref.go`.

A shallow embedding of the `ProjectRef` record of package `model`, of its
derived accessors (`Location`, `GetBatchTime`) and of its query wrappers
(`FindOneProjectRef`, `FindProjectRefs`, `UntrackStaleProjectRefs`, `Upsert`) over an
explicit model of the `project_ref` collection.

Conventions.
* Go `int` is `Int` (no arithmetic is performed on it in this file).
* A Go `error` is `Option GoError`; `none` is the `nil` error.
* A `*T` that may be `nil` is `Option T`.
* A slice or a map that may be `nil` is an `Option`: `none` is `nil`, `some []` is
  empty and not `nil`. A map is an association list in the order its keys are written.
* A `bson.M` is an association list; assigning a key that is already present
  overwrites it, as a Go map does.
* The BSON codec of the driver is `bson.encode` and `bson.decode` for the values of a
  settings map, and `ProjectRef.marshal` and `ProjectRef.unmarshal` for a whole ref:
  what was written as a `nil` slice or map is read back empty and not `nil`.
* The collection is a list of documents in natural order; the database round trip can
  fail, which is the `fault` argument of every storage primitive.
-/

namespace evergreen

/-- A Go `error` value: either the sentinel `mgo.ErrNotFound` or any other error,
identified by its message. -/
inductive GoError
  | ErrNotFound
  | other (msg : String)
  deriving DecidableEq

namespace model

/-- Go `RepositoryErrorDetails`: whether there is an invalid revision and the guessed
merge base. -/
structure RepositoryErrorDetails where
  Exists : Bool := false
  InvalidRevision : String := ""
  MergeBaseRevision : String := ""
  deriving DecidableEq

mutual

/-- A Go value held in an `interface{}` under a key of `AlertConfig.Settings`: `nil`, a
string, a boolean, an `int`, an `int64`, a `float64` (carried by its bit pattern), a
`time.Time` (nanoseconds since the Unix epoch and the name of its location), a
`[]string`, a `[]interface{}` or a `bson.M`, the last three either `nil` or with
their contents. -/
inductive GoValue
  | nil
  | str (s : String)
  | bool (b : Bool)
  | int (n : Int)
  | int64 (n : Int)
  | float64 (bits : Nat)
  | time (unixNanos : Int) (zone : String)
  | nilStrings
  | strings (xs : List String)
  | nilValues
  | values (xs : GoValues)
  | nilM
  | m (entries : GoFields)
  deriving DecidableEq

/-- The elements of a `[]interface{}`. -/
inductive GoValues
  | nil
  | cons (head : GoValue) (tail : GoValues)
  deriving DecidableEq

/-- The entries of a `bson.M`, key by key. -/
inductive GoFields
  | nil
  | cons (key : String) (value : GoValue) (tail : GoFields)
  deriving DecidableEq

end

/-- Go `AlertConfig`: a provider and its provider-specific settings, a `bson.M` that
may be `nil`. -/
structure AlertConfig where
  Provider : String := ""
  Settings : Option GoFields := none
  deriving DecidableEq

end model

namespace bson

mutual

/-- A BSON value inside a settings sub-document: null, string, boolean, 32-bit and
64-bit integer, double (by its bit pattern), UTC datetime in milliseconds, array,
sub-document. -/
inductive Elem
  | null
  | str (s : String)
  | bool (b : Bool)
  | int32 (n : Int)
  | int64 (n : Int)
  | double (bits : Nat)
  | date (millis : Int)
  | arr (xs : Elems)
  | doc (fields : ElemFields)
  deriving DecidableEq

/-- The elements of a BSON array. -/
inductive Elems
  | nil
  | cons (head : Elem) (tail : Elems)
  deriving DecidableEq

/-- The fields of a BSON sub-document. -/
inductive ElemFields
  | nil
  | cons (key : String) (value : Elem) (tail : ElemFields)
  deriving DecidableEq

end

/-- The sub-document an `AlertConfig` is stored as: its provider and its settings
sub-document. -/
structure AlertDoc where
  provider : String
  settings : ElemFields
  deriving DecidableEq

/-- A BSON value, as far as the `project_ref` collection needs them: the scalars, an
array of strings, the sub-document of alert settings (trigger by trigger, an array of
alert sub-documents) and the sub-document of repository error details. -/
inductive Value
  | null
  | str (s : String)
  | bool (b : Bool)
  | int (n : Int)
  | strs (xs : List String)
  | alerts (m : List (String × List AlertDoc))
  | errDetails (e : model.RepositoryErrorDetails)
  deriving DecidableEq

/-- Encode the strings of a `[]string` as the elements of a BSON array. -/
def encodeStrings : List String → Elems
  | [] => .nil
  | x :: rest => .cons (.str x) (encodeStrings rest)

mutual

/-- Encode a Go value of a settings map. An `int` goes into 32 bits when it fits and
into 64 bits otherwise; a `time.Time` is stored in whole milliseconds, without its
location; a `nil` slice is an empty array and a `nil` map an empty sub-document. -/
def encode : model.GoValue → Elem
  | .nil => .null
  | .str s => .str s
  | .bool b => .bool b
  | .int n => if -2147483648 ≤ n ∧ n ≤ 2147483647 then .int32 n else .int64 n
  | .int64 n => .int64 n
  | .float64 bits => .double bits
  | .time unixNanos _ => .date (unixNanos / 1000000)
  | .nilStrings => .arr .nil
  | .strings xs => .arr (encodeStrings xs)
  | .nilValues => .arr .nil
  | .values xs => .arr (encodeValues xs)
  | .nilM => .doc .nil
  | .m entries => .doc (encodeFields entries)

/-- Encode the elements of a `[]interface{}`. -/
def encodeValues : model.GoValues → Elems
  | .nil => .nil
  | .cons v rest => .cons (encode v) (encodeValues rest)

/-- Encode the entries of a `bson.M`. -/
def encodeFields : model.GoFields → ElemFields
  | .nil => .nil
  | .cons k v rest => .cons k (encode v) (encodeFields rest)

end

mutual

/-- Decode a BSON value into an `interface{}`: a 32-bit integer comes out as an `int`,
a 64-bit one as an `int64`, an array as a `[]interface{}`, a sub-document as a
`bson.M`, a datetime as a `time.Time` in the local zone (the zero time, in UTC, for
the datetime of the zero time). -/
def decode : Elem → model.GoValue
  | .null => .nil
  | .str s => .str s
  | .bool b => .bool b
  | .int32 n => .int n
  | .int64 n => .int64 n
  | .double bits => .float64 bits
  | .date millis =>
    if millis = -62135596800000 then .time (millis * 1000000) "UTC"
    else .time (millis * 1000000) "Local"
  | .arr xs => .values (decodeValues xs)
  | .doc fields => .m (decodeFields fields)

/-- Decode the elements of a BSON array. -/
def decodeValues : Elems → model.GoValues
  | .nil => .nil
  | .cons e rest => .cons (decode e) (decodeValues rest)

/-- Decode the fields of a BSON sub-document. -/
def decodeFields : ElemFields → model.GoFields
  | .nil => .nil
  | .cons k e rest => .cons k (decode e) (decodeFields rest)

end

/-- Read key `k` of a Go map written as an association list. -/
def mapGet {β : Type} (k : String) : List (String × β) → Option β
  | [] => none
  | (k', v) :: rest => if k' = k then some v else mapGet k rest

/-- Go map assignment `m[k] = v`: overwrite the entry of `k`, or add one. -/
def mapSet {β : Type} (k : String) (v : β) : List (String × β) → List (String × β)
  | [] => [(k, v)]
  | (k', v') :: rest => if k' = k then (k, v) :: rest else (k', v') :: mapSet k v rest

/-- A Go map literal `bson.M{k1: v1, k2: v2, ...}`, evaluated entry by entry: a key
written twice keeps the last value. -/
def lit {β : Type} (entries : List (String × β)) : List (String × β) :=
  entries.foldl (fun m kv => mapSet kv.1 kv.2 m) []

/-- A document: field names with their values. A document of the collection does not
repeat a field name. -/
abbrev Doc := List (String × Value)

/-- Go `bson.M` whose values are BSON values. -/
abbrev M := List (String × Value)

/-- The condition a selector puts on one field. -/
inductive Cond
  | eq (v : Value)
  | nin (xs : List String)
  | lt (key : String)
  | gte (key : String)
  deriving DecidableEq

/-- A selector document: conditions by field name. -/
abbrev Query := List (String × Cond)

/-- Whether a field value (`none` when the field is absent) meets a condition.
Strings are compared by code point, which is the byte order of their UTF-8 form;
`$lt` and `$gte` against a string only match strings; `$nin` also matches a
document without the field; an array value is compared as a whole. -/
def Cond.holds : Cond → Option Value → Bool
  | .eq v, some w => decide (w = v)
  | .eq v, none => decide (v = Value.null)
  | .nin xs, some (.str s) => decide (s ∉ xs)
  | .nin _, _ => true
  | .lt key, some (.str s) => decide (s.data < key.data)
  | .lt _, _ => false
  | .gte key, some (.str s) => decide (key.data ≤ s.data)
  | .gte _, _ => false

/-- Whether a document meets every condition of a selector. -/
def satisfies (q : Query) (d : Doc) : Bool :=
  q.all (fun kc => kc.2.holds (mapGet kc.1 d))

/-- Apply `{"$set": fields}` to a document. -/
def applySet (fields : M) (d : Doc) : Doc :=
  fields.foldl (fun acc kv => mapSet kv.1 kv.2 acc) d

/-- The document an upsert starts from when nothing matches: the equality
conditions of the selector. -/
def seed (q : Query) : Doc :=
  q.foldl (fun acc kc => match kc.2 with
    | .eq v => mapSet kc.1 v acc
    | _ => acc) []

/-- Sort key of a field value: the BSON type bracket (absent and null first, then
numbers, strings, sub-documents, arrays, booleans), then the value inside it. -/
def sortKey : Option Value → ℕ ×ₗ ℤ ×ₗ List Char
  | none => toLex (1, toLex (0, []))
  | some .null => toLex (1, toLex (0, []))
  | some (.int n) => toLex (2, toLex (n, []))
  | some (.str s) => toLex (3, toLex (0, s.data))
  | some (.alerts _) => toLex (4, toLex (0, []))
  | some (.errDetails _) => toLex (4, toLex (0, []))
  | some (.strs _) => toLex (5, toLex (0, []))
  | some (.bool b) => toLex (8, toLex ((if b then 1 else 0), []))

/-- One sort specification: `(descending, field)`; a leading `-` means descending. -/
def parseSort (spec : String) : Bool × String :=
  match spec.data with
  | '-' :: rest => (true, String.mk rest)
  | _ => (false, spec)

/-- Ascending order of documents on a field. -/
def ascOn (field : String) (a b : Doc) : Prop :=
  sortKey (mapGet field a) ≤ sortKey (mapGet field b)

/-- Descending order of documents on a field. -/
def descOn (field : String) (a b : Doc) : Prop :=
  sortKey (mapGet field b) ≤ sortKey (mapGet field a)

instance (field : String) : DecidableRel (ascOn field) :=
  fun a b => inferInstanceAs (Decidable (sortKey (mapGet field a) ≤ sortKey (mapGet field b)))

instance (field : String) : DecidableRel (descOn field) :=
  fun a b => inferInstanceAs (Decidable (sortKey (mapGet field b) ≤ sortKey (mapGet field a)))

/-- Stable sort of documents by one specification. -/
def sortBy (spec : String) (l : List Doc) : List Doc :=
  if (parseSort spec).1 then l.insertionSort (descOn (parseSort spec).2)
  else l.insertionSort (ascOn (parseSort spec).2)

/-- Sort by a list of specifications, the first one being the primary key. -/
def sortDocs (specs : List String) (l : List Doc) : List Doc :=
  specs.foldr sortBy l

/-- Keep the projected fields; the empty projection keeps the whole document. -/
def project (projection : List String) (d : Doc) : Doc :=
  if projection = [] then d else d.filter (fun kv => decide (kv.1 ∈ projection))

end bson

namespace db

open bson

/-- The documents of one collection, in natural order. -/
abbrev Collection := List Doc

/-- Modelled from the spec: the constant `db.NoProjection` of package `db`, which is
not part of this file; it asks for whole documents. -/
def NoProjection : List String := []

/-- Modelled from the spec: the constant `db.NoSort` of package `db`, which is not
part of this file; it asks for natural order. -/
def NoSort : List String := []

/-- Modelled from the spec: the constant `db.NoSkip` of package `db`, which is not
part of this file; no document is skipped. -/
def NoSkip : Int := 0

/-- Modelled from the spec: the constant `db.NoLimit` of package `db`, which is not
part of this file. It is the limit `FindAllProjectRefs` passes to get every document:
a limit of zero does not bound the result. -/
def NoLimit : Int := 0

/-- Cut a result list to a limit, `noLimit` being the limit that stands for no limit:
that one keeps everything, any other limit keeps that many documents (a negative
limit counts by its absolute value). -/
def limitTo {α : Type} (noLimit limit : Int) (l : List α) : List α :=
  if limit = noLimit then l else l.take limit.natAbs

/-- Cut a result list to a limit, `NoLimit` keeping everything. -/
def applyLimit {α : Type} (limit : Int) (l : List α) : List α :=
  limitTo NoLimit limit l

/-- The documents a query selects, sorted, skipped, limited and projected. -/
def run (c : Collection) (query : Query) (projection : List String) (sort : List String)
    (skip limit : Int) : List Doc :=
  (applyLimit limit ((sortDocs sort (c.filter (satisfies query))).drop skip.toNat)).map
    (project projection)

/-- Modelled from the spec: `db.FindOne` of package `db`, which is not part of this
file (point find by selector). The first selected document is decoded into `out`;
when none is selected the error is `mgo.ErrNotFound` and `out` is left as it was; a
failed round trip reports its error and leaves `out` as it was. -/
def FindOne {α : Type} (fault : Option String) (c : Collection) (query : Query)
    (projection : List String) (sort : List String) (unmarshal : Doc → α) (out : α) :
    α × Option GoError :=
  match fault with
  | some msg => (out, some (.other msg))
  | none =>
    match ((sortDocs sort (c.filter (satisfies query))).map (project projection)).head? with
    | none => (out, some .ErrNotFound)
    | some d => (unmarshal d, none)

/-- Modelled from the spec: `db.FindAll` of package `db`, which is not part of this
file (filtered bulk find with sort, skip and limit). Every selected document is
decoded; a failed round trip reports its error and leaves `out` as it was. -/
def FindAll {α : Type} (fault : Option String) (c : Collection) (query : Query)
    (projection : List String) (sort : List String) (skip limit : Int)
    (unmarshal : Doc → α) (out : List α) : List α × Option GoError :=
  match fault with
  | some msg => (out, some (.other msg))
  | none => ((run c query projection sort skip limit).map unmarshal, none)

/-- Modelled from the spec: `db.Insert` of package `db`, which is not part of this
file; the marshalled document is added to the collection. -/
def Insert (fault : Option String) (c : Collection) (d : Doc) : Except GoError Collection :=
  match fault with
  | some msg => .error (.other msg)
  | none => .ok (c ++ [d])

/-- Modelled from the spec: `db.UpdateAll` of package `db`, which is not part of this
file (bulk conditional update): every selected document gets the `$set`, the others
stay as they are. A failed round trip reports its error. -/
def UpdateAll (fault : Option String) (c : Collection) (query : Query) (setFields : M) :
    Except GoError Collection :=
  match fault with
  | some msg => .error (.other msg)
  | none => .ok (c.map (fun d => if satisfies query d then applySet setFields d else d))

/-- Update the first selected document, or add the seeded one at the end. -/
def upsertFirst (query : Query) (setFields : M) : Collection → Collection
  | [] => [applySet setFields (seed query)]
  | d :: rest =>
    if satisfies query d then applySet setFields d :: rest
    else d :: upsertFirst query setFields rest

/-- Modelled from the spec: `db.Upsert` of package `db`, which is not part of this
file (upsert by key): the first selected document gets the `$set`; when none is
selected a document made of the selector's equalities and the `$set` is inserted.
The generated `_id` of an inserted document is left out of the model. -/
def Upsert (fault : Option String) (c : Collection) (query : Query) (setFields : M) :
    Except GoError Collection :=
  match fault with
  | some msg => .error (.other msg)
  | none => .ok (upsertFirst query setFields c)

end db

namespace model

open bson

/-- Go `ProjectRef`: general information, independent of any revision control
system, needed to track a project. `Admins` is a slice and `Alerts` a map from a
trigger to a slice of alert deliveries, each of which may be `nil`;
`RepotrackerError` is a pointer that may be `nil`. -/
structure ProjectRef where
  Owner : String := ""
  Repo : String := ""
  Branch : String := ""
  RepoKind : String := ""
  Enabled : Bool := false
  Private : Bool := false
  BatchTime : Int := 0
  RemotePath : String := ""
  Identifier : String := ""
  DisplayName : String := ""
  LocalConfig : String := ""
  DeactivatePrevious : Bool := false
  Tracked : Bool := false
  Admins : Option (List String) := none
  Alerts : Option (List (String × Option (List AlertConfig))) := none
  RepotrackerError : Option RepositoryErrorDetails := none
  deriving DecidableEq

/-- Modelled from the spec: the type `BuildVariant` is declared elsewhere in package
`model`; `GetBatchTime` reads its `BatchTime`, a pointer to the variant's batch-time
override that is `nil` when the variant has none. `Name` stands for its other
fields. -/
structure BuildVariant where
  Name : String := ""
  BatchTime : Option Int := none
  deriving DecidableEq

/-! The bson field names: `bsonutil.MustHaveTag` returns the `bson` tag the struct
declares for the named field. -/

/-- Tag of `Owner`. -/
def ProjectRefOwnerKey : String := "owner_name"
/-- Tag of `Repo`. -/
def ProjectRefRepoKey : String := "repo_name"
/-- Tag of `Branch`. -/
def ProjectRefBranchKey : String := "branch_name"
/-- Tag of `RepoKind`. -/
def ProjectRefRepoKindKey : String := "repo_kind"
/-- Tag of `Enabled`. -/
def ProjectRefEnabledKey : String := "enabled"
/-- Tag of `Private`. -/
def ProjectRefPrivateKey : String := "private"
/-- Tag of `BatchTime`. -/
def ProjectRefBatchTimeKey : String := "batch_time"
/-- Tag of `Identifier`. -/
def ProjectRefIdentifierKey : String := "identifier"
/-- Tag of `DisplayName`. -/
def ProjectRefDisplayNameKey : String := "display_name"
/-- Tag of `DeactivatePrevious`. -/
def ProjectRefDeactivatePreviousKey : String := "deactivate_previous"
/-- Tag of `RemotePath`. -/
def ProjectRefRemotePathKey : String := "remote_path"
/-- Tag of `Tracked`. -/
def ProjectRefTrackedKey : String := "tracked"
/-- Tag of `LocalConfig`. -/
def ProjectRefLocalConfig : String := "local_config"
/-- Tag of `Alerts`. -/
def ProjectRefAlertsKey : String := "alert_settings"
/-- Tag of `RepotrackerError`. -/
def ProjectRefRepotrackerError : String := "repotracker_error"
/-- Tag of `Admins`. -/
def ProjectRefAdminsKey : String := "admins"

/-- Modelled from the spec: the constant `ProjectIdentifierKey` is declared elsewhere
in package `model`; `FindProjectRefs` filters and sorts on it. The spec orders the
pages by Identifier, so it is the field name of `Identifier`. -/
def ProjectIdentifierKey : String := "identifier"

/-- Name of the collection the documents live in. -/
def ProjectRefCollection : String := "project_ref"

/-- Decode a string field; a missing or differently typed value leaves the zero
value. -/
def strField (d : Doc) (k : String) : String :=
  match mapGet k d with
  | some (.str s) => s
  | _ => ""

/-- Decode a boolean field; a number decodes as `true` when it is not zero. -/
def boolField (d : Doc) (k : String) : Bool :=
  match mapGet k d with
  | some (.bool b) => b
  | some (.int n) => decide (n ≠ 0)
  | _ => false

/-- Decode an integer field; a boolean decodes as 1 or 0. -/
def intField (d : Doc) (k : String) : Int :=
  match mapGet k d with
  | some (.int n) => n
  | some (.bool b) => if b then 1 else 0
  | _ => 0

/-- Decode an alert sub-document: the settings come out as a `bson.M` that is not
`nil`. -/
def decodeAlert (a : AlertDoc) : AlertConfig :=
  { Provider := a.provider, Settings := some (decodeFields a.settings) }

/-- Encode an `AlertConfig`: `nil` settings are an empty sub-document. -/
def encodeAlert (a : AlertConfig) : AlertDoc :=
  { provider := a.Provider
    settings := match a.Settings with
      | none => .nil
      | some entries => encodeFields entries }

/-- Encode the `Admins` slice: `nil` is an empty array. -/
def adminsValue (admins : Option (List String)) : Value :=
  .strs (admins.getD [])

/-- Encode the `Alerts` map: `nil` is an empty sub-document, and a `nil` slice of
alerts an empty array. -/
def alertsValue (alerts : Option (List (String × Option (List AlertConfig)))) : Value :=
  .alerts ((alerts.getD []).map (fun kv => (kv.1, (kv.2.getD []).map encodeAlert)))

/-- Decode a document into a freshly zeroed `ProjectRef`, field by field through the
`bson` tags. An array decodes into a slice that is not `nil` and a sub-document into a
map that is not `nil`; a field the document does not carry stays `nil`. -/
def ProjectRef.unmarshal (d : Doc) : ProjectRef :=
  { Owner := strField d ProjectRefOwnerKey
    Repo := strField d ProjectRefRepoKey
    Branch := strField d ProjectRefBranchKey
    RepoKind := strField d ProjectRefRepoKindKey
    Enabled := boolField d ProjectRefEnabledKey
    Private := boolField d ProjectRefPrivateKey
    BatchTime := intField d ProjectRefBatchTimeKey
    RemotePath := strField d ProjectRefRemotePathKey
    Identifier := strField d ProjectRefIdentifierKey
    DisplayName := strField d ProjectRefDisplayNameKey
    LocalConfig := strField d ProjectRefLocalConfig
    DeactivatePrevious := boolField d ProjectRefDeactivatePreviousKey
    Tracked := boolField d ProjectRefTrackedKey
    Admins := match mapGet ProjectRefAdminsKey d with
      | some (.strs xs) => some xs
      | _ => none
    Alerts := match mapGet ProjectRefAlertsKey d with
      | some (.alerts m) => some (m.map (fun kv => (kv.1, some (kv.2.map decodeAlert))))
      | _ => none
    RepotrackerError := match mapGet ProjectRefRepotrackerError d with
      | some (.errDetails e) => some e
      | _ => none }

/-- Encode the `RepotrackerError` pointer: `nil` is the BSON null. -/
def errValue : Option RepositoryErrorDetails → Value
  | none => .null
  | some e => .errDetails e

/-- Encode a whole `ProjectRef`, fields in declaration order. -/
def ProjectRef.marshal (r : ProjectRef) : Doc :=
  [ (ProjectRefOwnerKey, .str r.Owner),
    (ProjectRefRepoKey, .str r.Repo),
    (ProjectRefBranchKey, .str r.Branch),
    (ProjectRefRepoKindKey, .str r.RepoKind),
    (ProjectRefEnabledKey, .bool r.Enabled),
    (ProjectRefPrivateKey, .bool r.Private),
    (ProjectRefBatchTimeKey, .int r.BatchTime),
    (ProjectRefRemotePathKey, .str r.RemotePath),
    (ProjectRefIdentifierKey, .str r.Identifier),
    (ProjectRefDisplayNameKey, .str r.DisplayName),
    (ProjectRefLocalConfig, .str r.LocalConfig),
    (ProjectRefDeactivatePreviousKey, .bool r.DeactivatePrevious),
    (ProjectRefTrackedKey, .bool r.Tracked),
    (ProjectRefAdminsKey, adminsValue r.Admins),
    (ProjectRefAlertsKey, alertsValue r.Alerts),
    (ProjectRefRepotrackerError, errValue r.RepotrackerError) ]

/-- Go `(*ProjectRef).Insert`. -/
def ProjectRef.Insert (fault : Option String) (store : db.Collection) (projectRef : ProjectRef) :
    Except GoError db.Collection :=
  db.Insert fault store projectRef.marshal

/-- Go `FindOneProjectRef`: the project ref with the given identifier, `(nil, nil)`
when there is none. -/
def FindOneProjectRef (fault : Option String) (store : db.Collection) (identifier : String) :
    Option ProjectRef × Option GoError :=
  let projectRef : ProjectRef := {}
  let res := db.FindOne fault store
    (lit [(ProjectRefIdentifierKey, Cond.eq (.str identifier))])
    db.NoProjection db.NoSort ProjectRef.unmarshal projectRef
  if res.2 = some GoError.ErrNotFound then (none, none)
  else (some res.1, res.2)

/-- Go `FindAllTrackedProjectRefs`: all project refs that are tracked. -/
def FindAllTrackedProjectRefs (fault : Option String) (store : db.Collection) :
    List ProjectRef × Option GoError :=
  db.FindAll fault store (lit [(ProjectRefTrackedKey, Cond.eq (.bool true))])
    db.NoProjection db.NoSort db.NoSkip db.NoLimit ProjectRef.unmarshal []

/-- Go `FindAllProjectRefs`: all project refs. -/
def FindAllProjectRefs (fault : Option String) (store : db.Collection) :
    List ProjectRef × Option GoError :=
  db.FindAll fault store (lit []) db.NoProjection db.NoSort db.NoSkip db.NoLimit
    ProjectRef.unmarshal []

/-- Go `FindProjectRefs`: `limit` refs starting at project identifier `key` in the
`sortDir` direction. -/
def FindProjectRefs (fault : Option String) (store : db.Collection) (key : String)
    (limit : Int) (sortDir : Int) (isAuthenticated : Bool) : List ProjectRef × Option GoError :=
  let projectRefs : List ProjectRef := []
  let filter : Query := lit []
  let filter :=
    if !isAuthenticated then mapSet ProjectRefPrivateKey (Cond.eq (.bool false)) filter
    else filter
  let sortSpec := ProjectIdentifierKey
  let sortAndFilter :=
    if sortDir < 0 then
      ("-" ++ sortSpec, mapSet ProjectIdentifierKey (Cond.lt key) filter)
    else
      (sortSpec, mapSet ProjectIdentifierKey (Cond.gte key) filter)
  db.FindAll fault store sortAndFilter.2 db.NoProjection [sortAndFilter.1] db.NoSkip limit
    ProjectRef.unmarshal projectRefs

/-- Go `UntrackStaleProjectRefs`: set every project ref whose identifier is not in
`activeProjects` to untracked. -/
def UntrackStaleProjectRefs (fault : Option String) (store : db.Collection)
    (activeProjects : List String) : Except GoError db.Collection :=
  db.UpdateAll fault store
    (lit [(ProjectRefIdentifierKey, Cond.nin activeProjects)])
    (lit [(ProjectRefTrackedKey, Value.bool false)])

/-- Go `(*ProjectRef).Upsert`: overwrite the project ref stored under the identifier,
or create it. The `$set` literal is written as in the source, `Tracked` twice. -/
def ProjectRef.Upsert (fault : Option String) (store : db.Collection) (projectRef : ProjectRef) :
    Except GoError db.Collection :=
  db.Upsert fault store
    (lit [(ProjectRefIdentifierKey, Cond.eq (.str projectRef.Identifier))])
    (lit [
      (ProjectRefRepoKindKey, Value.str projectRef.RepoKind),
      (ProjectRefEnabledKey, Value.bool projectRef.Enabled),
      (ProjectRefPrivateKey, Value.bool projectRef.Private),
      (ProjectRefBatchTimeKey, Value.int projectRef.BatchTime),
      (ProjectRefOwnerKey, Value.str projectRef.Owner),
      (ProjectRefRepoKey, Value.str projectRef.Repo),
      (ProjectRefBranchKey, Value.str projectRef.Branch),
      (ProjectRefDisplayNameKey, Value.str projectRef.DisplayName),
      (ProjectRefDeactivatePreviousKey, Value.bool projectRef.DeactivatePrevious),
      (ProjectRefTrackedKey, Value.bool projectRef.Tracked),
      (ProjectRefRemotePathKey, Value.str projectRef.RemotePath),
      (ProjectRefTrackedKey, Value.bool projectRef.Tracked),
      (ProjectRefLocalConfig, Value.str projectRef.LocalConfig),
      (ProjectRefAlertsKey, alertsValue projectRef.Alerts),
      (ProjectRefRepotrackerError, errValue projectRef.RepotrackerError),
      (ProjectRefAdminsKey, adminsValue projectRef.Admins)])

/-- Go `(*ProjectRef).GetBatchTime`: the variant's batch time when it has one, else
the project's. The variant is a pointer; dereferencing `nil` is a run-time panic,
the result `none`. -/
def ProjectRef.GetBatchTime (p : ProjectRef) (variant : Option BuildVariant) : Option Int :=
  match variant with
  | none => none
  | some v =>
    match v.BatchTime with
    | some x => some x
    | none => some p.BatchTime

/-- Go `(*ProjectRef).Location`: the ssh hostname and path to the repo, or an
error when the owner or the repo is missing. `%v` prints a string as it is. -/
def ProjectRef.Location (projectRef : ProjectRef) : String × Option GoError :=
  if projectRef.Owner = "" then
    ("", some (.other ("No owner in project ref: " ++ projectRef.Identifier)))
  else if projectRef.Repo = "" then
    ("", some (.other ("No repo in project ref: " ++ projectRef.Identifier)))
  else
    ("git@github.com:" ++ projectRef.Owner ++ "/" ++ projectRef.Repo ++ ".git", none)

/-- Whether a stored document carries the identifier `id`. -/
def hasIdentifier (id : String) (d : Doc) : Bool :=
  decide (mapGet ProjectRefIdentifierKey d = some (.str id))

/-- A store that holds at most one document per identifier. -/
def UniqueIdentifiers (store : db.Collection) : Prop :=
  ∀ id : String, store.countP (hasIdentifier id) ≤ 1

/-- The `$set` document of `Upsert`, once the map literal is evaluated. -/
def upsertFields (r : ProjectRef) : M :=
  [ (ProjectRefRepoKindKey, Value.str r.RepoKind),
    (ProjectRefEnabledKey, Value.bool r.Enabled),
    (ProjectRefPrivateKey, Value.bool r.Private),
    (ProjectRefBatchTimeKey, Value.int r.BatchTime),
    (ProjectRefOwnerKey, Value.str r.Owner),
    (ProjectRefRepoKey, Value.str r.Repo),
    (ProjectRefBranchKey, Value.str r.Branch),
    (ProjectRefDisplayNameKey, Value.str r.DisplayName),
    (ProjectRefDeactivatePreviousKey, Value.bool r.DeactivatePrevious),
    (ProjectRefTrackedKey, Value.bool r.Tracked),
    (ProjectRefRemotePathKey, Value.str r.RemotePath),
    (ProjectRefLocalConfig, Value.str r.LocalConfig),
    (ProjectRefAlertsKey, alertsValue r.Alerts),
    (ProjectRefRepotrackerError, errValue r.RepotrackerError),
    (ProjectRefAdminsKey, adminsValue r.Admins) ]

/-- The selector `FindProjectRefs` builds: the privacy condition for callers that
are not authenticated, then the bound on the identifier in the direction of
`sortDir`. -/
def findProjectRefsFilter (key : String) (sortDir : Int) (isAuthenticated : Bool) : Query :=
  let filter : Query := lit []
  let filter := if !isAuthenticated then mapSet ProjectRefPrivateKey (Cond.eq (.bool false)) filter
    else filter
  if sortDir < 0 then mapSet ProjectIdentifierKey (Cond.lt key) filter
  else mapSet ProjectIdentifierKey (Cond.gte key) filter

/-- The sort specification `FindProjectRefs` builds. -/
def findProjectRefsSort (sortDir : Int) : String :=
  let sortSpec := ProjectIdentifierKey
  if sortDir < 0 then "-" ++ sortSpec else sortSpec

/-- The identifier a stored document decodes to. -/
def identifierOf (d : Doc) : String :=
  strField d ProjectRefIdentifierKey

/-- The documents a page may hold, in the spec's words: the caller is authenticated or
the document's `private` is false, and the document carries an identifier below `key`
when `sortDir` is negative, at or above `key` otherwise. -/
def eligible (key : String) (sortDir : Int) (isAuthenticated : Bool) (d : Doc) : Bool :=
  (isAuthenticated || decide (mapGet ProjectRefPrivateKey d = some (.bool false))) &&
  (match mapGet ProjectRefIdentifierKey d with
    | some (.str s) => if sortDir < 0 then decide (s < key) else decide (key ≤ s)
    | _ => false)

/-- The scan the spec describes for a caller that is not authenticated: the
non-private documents on the asked side of `key`, ordered by identifier, descending
when `sortDir` is negative and ascending otherwise. -/
def publicScan (store : db.Collection) (key : String) (sortDir : Int) : List Doc :=
  if sortDir < 0 then
    (store.filter (eligible key sortDir false)).insertionSort
      (fun a b => identifierOf b ≤ identifierOf a)
  else
    (store.filter (eligible key sortDir false)).insertionSort
      (fun a b => identifierOf a ≤ identifierOf b)

/-- The page the spec describes for a caller that is not authenticated: the first
`limit` documents of the public scan, decoded. -/
def publicPage (store : db.Collection) (key : String) (limit : Int) (sortDir : Int) :
    List ProjectRef :=
  ((publicScan store key sortDir).take limit.toNat).map ProjectRef.unmarshal

/-- What the codec returns for the settings of an alert, once written and read back:
a `bson.M` that is not `nil`, each value encoded and decoded. -/
def settingsAfterCodec (settings : Option GoFields) : Option GoFields :=
  some (decodeFields (encodeFields (settings.getD .nil)))

/-- What the codec returns for an alert, once written and read back. -/
def alertAfterCodec (a : AlertConfig) : AlertConfig :=
  { Provider := a.Provider, Settings := settingsAfterCodec a.Settings }

/-- What the codec returns for the `Alerts` map, once written and read back: a map
that is not `nil`, with the same triggers, each with a slice that is not `nil` of the
same alerts as the codec returns them. -/
def alertsAfterCodec (alerts : Option (List (String × Option (List AlertConfig)))) :
    Option (List (String × Option (List AlertConfig))) :=
  some ((alerts.getD []).map (fun kv => (kv.1, some ((kv.2.getD []).map alertAfterCodec))))

/-- Example ref `a`: tracked, with an owner and a repo; its `Admins` and `Alerts` are
empty and not `nil`, as the store returns them. -/
def refA : ProjectRef :=
  { Identifier := "a", Tracked := true, Owner := "evergreen-ci", Repo := "evergreen",
    Admins := some [], Alerts := some [] }

/-- Example ref `d`: only an identifier; `Admins` and `Alerts` are `nil`. -/
def refD : ProjectRef := { Identifier := "d" }

/-- Example ref `e`: admins and one e-mail alert whose settings hold a `[]string` and
an `int` beyond 32 bits. -/
def refE : ProjectRef :=
  { Identifier := "e", Admins := some ["me"],
    Alerts := some [("task-failed", some [
      { Provider := "email",
        Settings := some (.cons "recipients" (.strings ["a@example.com"])
          (.cons "quota" (.int 5000000000) .nil)) }])] }

/-- Example ref `b`: private and tracked. -/
def refB : ProjectRef :=
  { Identifier := "b", Tracked := true, Private := true, Admins := some [], Alerts := some [] }

/-- Example ref `c`: tracked, with a batch time of 60. -/
def refC : ProjectRef :=
  { Identifier := "c", Tracked := true, BatchTime := 60, Admins := some [], Alerts := some [] }

/-- Example store holding `a`, `b` and `c`, each as `Insert` writes it. -/
def storeABC : db.Collection := [refA.marshal, refB.marshal, refC.marshal]

end model

namespace bson

theorem mapGet_mapSet {β : Type} (k k' : String) (v : β) (m : List (String × β)) :
    mapGet k' (mapSet k v m) = if k = k' then some v else mapGet k' m := by
  induction m with
  | nil => simp [mapSet, mapGet]
  | cons hd tl ih =>
    obtain ⟨k0, v0⟩ := hd
    by_cases h0 : k0 = k
    · subst h0
      by_cases h1 : k0 = k' <;> simp [mapSet, mapGet, h1]
    · by_cases h1 : k0 = k'
      · subst h1
        have : ¬ k = k0 := fun h => h0 h.symm
        simp [mapSet, mapGet, h0, this]
      · simp [mapSet, mapGet, h0, h1, ih]

theorem mapSet_of_mapGet {β : Type} (k : String) (v : β) (m : List (String × β))
    (h : mapGet k m = some v) : mapSet k v m = m := by
  induction m with
  | nil => simp [mapGet] at h
  | cons hd tl ih =>
    obtain ⟨k0, v0⟩ := hd
    by_cases h0 : k0 = k
    · subst h0
      simp only [mapGet, if_true, Option.some.injEq] at h
      simp [mapSet, h]
    · simp only [mapGet, h0, if_false] at h
      simp [mapSet, h0, ih h]

theorem applySet_cons (k : String) (v : Value) (t : M) (d : Doc) :
    applySet ((k, v) :: t) d = applySet t (mapSet k v d) := rfl

theorem mapGet_applySet_of_not_mem (k : String) (fields : M) (d : Doc)
    (h : k ∉ fields.map Prod.fst) : mapGet k (applySet fields d) = mapGet k d := by
  induction fields generalizing d with
  | nil => rfl
  | cons hd tl ih =>
    obtain ⟨k0, v0⟩ := hd
    simp only [List.map_cons, List.mem_cons, not_or] at h
    rw [applySet_cons, ih _ h.2, mapGet_mapSet, if_neg (fun e => h.1 e.symm)]

theorem mapGet_applySet_of_mem (k : String) (v : Value) (fields : M) (d : Doc)
    (hnd : (fields.map Prod.fst).Nodup) (h : (k, v) ∈ fields) :
    mapGet k (applySet fields d) = some v := by
  induction fields generalizing d with
  | nil => simp at h
  | cons hd tl ih =>
    obtain ⟨k0, v0⟩ := hd
    simp only [List.map_cons, List.nodup_cons] at hnd
    rw [applySet_cons]
    rcases List.mem_cons.mp h with h | h
    · obtain ⟨rfl, rfl⟩ := Prod.mk.inj h
      rw [mapGet_applySet_of_not_mem _ _ _ hnd.1, mapGet_mapSet, if_pos rfl]
    · exact ih _ hnd.2 h

theorem applySet_of_mapGet (fields : M) (d : Doc)
    (h : ∀ kv ∈ fields, mapGet kv.1 d = some kv.2) : applySet fields d = d := by
  induction fields with
  | nil => rfl
  | cons hd tl ih =>
    obtain ⟨k0, v0⟩ := hd
    rw [applySet_cons, mapSet_of_mapGet k0 v0 d (h (k0, v0) (List.mem_cons_self _ _))]
    exact ih (fun kv hkv => h kv (List.mem_cons_of_mem _ hkv))

theorem applySet_applySet (fields : M) (d : Doc) (hnd : (fields.map Prod.fst).Nodup) :
    applySet fields (applySet fields d) = applySet fields d :=
  applySet_of_mapGet fields _ (fun kv hkv => mapGet_applySet_of_mem kv.1 kv.2 fields d hnd hkv)

theorem nin_holds (xs : List String) (fv : Option Value) :
    (Cond.nin xs).holds fv = true ↔ ¬ ∃ a ∈ xs, fv = some (.str a) := by
  cases fv with
  | none => simp [Cond.holds]
  | some v => cases v <;> simp [Cond.holds]

theorem eq_holds_str (s : String) (fv : Option Value) :
    (Cond.eq (.str s)).holds fv = true ↔ fv = some (.str s) := by
  cases fv with
  | none => simp [Cond.holds]
  | some v => simp [Cond.holds]

end bson

namespace db

open bson

/-- Whatever limit stands for no limit, at that limit the result is not cut to its
first `limit` documents. -/
theorem limitTo_noLimit_keeps_all (noLimit : Int) :
    ∃ l : List Unit, limitTo noLimit noLimit l = l ∧
      limitTo noLimit noLimit l ≠ l.take noLimit.toNat := by
  refine ⟨List.replicate (noLimit.toNat + 1) (), by simp [limitTo], ?_⟩
  intro h
  have hl := congrArg List.length h
  simp [limitTo] at hl

theorem FindOne_plain {α : Type} (c : Collection) (query : Query) (unmarshal : Doc → α)
    (out : α) :
    FindOne none c query NoProjection NoSort unmarshal out =
      match (c.filter (satisfies query)).head? with
      | none => (out, some GoError.ErrNotFound)
      | some d => (unmarshal d, none) := by
  have hp : project NoProjection = id := by
    funext d
    simp [project, NoProjection]
  simp only [FindOne, NoSort, sortDocs, List.foldr, hp, List.map_id]

/-- What the first selected document of an upserted collection is: the updated
first match, or the updated seed. -/
theorem head_filter_upsertFirst (query : Query) (setFields : M) (c : Collection)
    (hpres : ∀ d, satisfies query d = true → satisfies query (applySet setFields d) = true)
    (hseed : satisfies query (applySet setFields (seed query)) = true) :
    ∃ d, ((d ∈ c ∧ satisfies query d = true) ∨ d = seed query) ∧
      ((upsertFirst query setFields c).filter (satisfies query)).head? =
        some (applySet setFields d) := by
  induction c with
  | nil =>
    exact ⟨seed query, Or.inr rfl, by simp [upsertFirst, hseed]⟩
  | cons d0 rest ih =>
    by_cases h : satisfies query d0 = true
    · refine ⟨d0, Or.inl ⟨List.mem_cons_self _ _, h⟩, ?_⟩
      simp [upsertFirst, h, hpres d0 h]
    · obtain ⟨d, hd, hh⟩ := ih
      refine ⟨d, ?_, ?_⟩
      · rcases hd with ⟨hm, hs⟩ | hd
        · exact Or.inl ⟨List.mem_cons_of_mem _ hm, hs⟩
        · exact Or.inr hd
      · simp only [upsertFirst, h, if_false, Bool.false_eq_true]
        rw [List.filter_cons_of_neg h]
        exact hh

theorem upsertFirst_idem (query : Query) (setFields : M) (c : Collection)
    (hnd : (setFields.map Prod.fst).Nodup)
    (hpres : ∀ d, satisfies query d = true → satisfies query (applySet setFields d) = true)
    (hseed : satisfies query (applySet setFields (seed query)) = true) :
    upsertFirst query setFields (upsertFirst query setFields c) =
      upsertFirst query setFields c := by
  induction c with
  | nil => simp [upsertFirst, hseed, applySet_applySet _ _ hnd]
  | cons d0 rest ih =>
    by_cases h : satisfies query d0 = true
    · simp [upsertFirst, h, hpres d0 h, applySet_applySet _ _ hnd]
    · simp [upsertFirst, h, ih]

theorem countP_upsertFirst (query : Query) (setFields : M) (c : Collection)
    (hpres : ∀ d, satisfies query d = true → satisfies query (applySet setFields d) = true)
    (hseed : satisfies query (applySet setFields (seed query)) = true) :
    (upsertFirst query setFields c).countP (satisfies query) =
      if c.countP (satisfies query) = 0 then 1 else c.countP (satisfies query) := by
  induction c with
  | nil => simp [upsertFirst, hseed]
  | cons d0 rest ih =>
    by_cases h : satisfies query d0 = true
    · simp [upsertFirst, h, hpres d0 h]
    · simp only [upsertFirst, h, if_false, Bool.false_eq_true]
      rw [List.countP_cons_of_neg _ _ h, List.countP_cons_of_neg _ _ h]
      exact ih

theorem length_upsertFirst (query : Query) (setFields : M) (c : Collection) :
    (upsertFirst query setFields c).length =
      if c.countP (satisfies query) = 0 then c.length + 1 else c.length := by
  induction c with
  | nil => simp [upsertFirst]
  | cons d0 rest ih =>
    by_cases h : satisfies query d0 = true
    · simp [upsertFirst, h]
    · simp only [upsertFirst, h, if_false, Bool.false_eq_true, List.length_cons]
      rw [List.countP_cons_of_neg _ _ h, ih]
      split <;> rfl

end db

namespace model

open bson

theorem satisfies_nin (xs : List String) (d : Doc) :
    satisfies (lit [(ProjectRefIdentifierKey, Cond.nin xs)]) d = true ↔
      ¬ ∃ a ∈ xs, mapGet ProjectRefIdentifierKey d = some (.str a) := by
  simp only [satisfies, lit, List.foldl, mapSet, List.all_cons, List.all_nil, Bool.and_true]
  exact nin_holds xs _

theorem satisfies_identifier (id : String) (d : Doc) :
    satisfies (lit [(ProjectRefIdentifierKey, Cond.eq (.str id))]) d = hasIdentifier id d := by
  rw [Bool.eq_iff_iff]
  simp only [satisfies, lit, List.foldl, mapSet, List.all_cons, List.all_nil, Bool.and_true,
    hasIdentifier, decide_eq_true_eq]
  exact eq_holds_str id _

theorem satisfies_identifier_fun (id : String) :
    satisfies (lit [(ProjectRefIdentifierKey, Cond.eq (.str id))]) = hasIdentifier id :=
  funext (satisfies_identifier id)

theorem unmarshal_untrack (d : Doc) :
    ProjectRef.unmarshal (mapSet ProjectRefTrackedKey (.bool false) d) =
      { ProjectRef.unmarshal d with Tracked := false } := by
  simp [ProjectRef.unmarshal, strField, boolField, intField, mapGet_mapSet,
    ProjectRefTrackedKey, ProjectRefOwnerKey, ProjectRefRepoKey, ProjectRefBranchKey,
    ProjectRefRepoKindKey, ProjectRefEnabledKey, ProjectRefPrivateKey, ProjectRefBatchTimeKey,
    ProjectRefIdentifierKey, ProjectRefDisplayNameKey, ProjectRefDeactivatePreviousKey,
    ProjectRefRemotePathKey, ProjectRefLocalConfig, ProjectRefAlertsKey,
    ProjectRefRepotrackerError, ProjectRefAdminsKey]

theorem Upsert_eq (r : ProjectRef) (store : db.Collection) :
    r.Upsert none store =
      .ok (db.upsertFirst (lit [(ProjectRefIdentifierKey, Cond.eq (.str r.Identifier))])
        (upsertFields r) store) := by
  have hlit : lit [
      (ProjectRefRepoKindKey, Value.str r.RepoKind),
      (ProjectRefEnabledKey, Value.bool r.Enabled),
      (ProjectRefPrivateKey, Value.bool r.Private),
      (ProjectRefBatchTimeKey, Value.int r.BatchTime),
      (ProjectRefOwnerKey, Value.str r.Owner),
      (ProjectRefRepoKey, Value.str r.Repo),
      (ProjectRefBranchKey, Value.str r.Branch),
      (ProjectRefDisplayNameKey, Value.str r.DisplayName),
      (ProjectRefDeactivatePreviousKey, Value.bool r.DeactivatePrevious),
      (ProjectRefTrackedKey, Value.bool r.Tracked),
      (ProjectRefRemotePathKey, Value.str r.RemotePath),
      (ProjectRefTrackedKey, Value.bool r.Tracked),
      (ProjectRefLocalConfig, Value.str r.LocalConfig),
      (ProjectRefAlertsKey, alertsValue r.Alerts),
      (ProjectRefRepotrackerError, errValue r.RepotrackerError),
      (ProjectRefAdminsKey, adminsValue r.Admins)] = upsertFields r := by
    simp [lit, mapSet, upsertFields, ProjectRefTrackedKey, ProjectRefOwnerKey,
      ProjectRefRepoKey, ProjectRefBranchKey, ProjectRefRepoKindKey, ProjectRefEnabledKey,
      ProjectRefPrivateKey, ProjectRefBatchTimeKey, ProjectRefDisplayNameKey,
      ProjectRefDeactivatePreviousKey, ProjectRefRemotePathKey, ProjectRefLocalConfig,
      ProjectRefAlertsKey, ProjectRefRepotrackerError, ProjectRefAdminsKey]
  simp only [ProjectRef.Upsert, db.Upsert, hlit]

theorem upsertFields_nodup (r : ProjectRef) : ((upsertFields r).map Prod.fst).Nodup := by
  simp only [upsertFields, List.map_cons, List.map_nil]
  decide

theorem identifier_not_mem_upsertFields (r : ProjectRef) :
    ProjectRefIdentifierKey ∉ (upsertFields r).map Prod.fst := by
  simp only [upsertFields, List.map_cons, List.map_nil]
  decide

theorem hasIdentifier_applySet (r : ProjectRef) (id : String) (d : Doc) :
    hasIdentifier id (applySet (upsertFields r) d) = hasIdentifier id d := by
  simp only [hasIdentifier, mapGet_applySet_of_not_mem _ _ _ (identifier_not_mem_upsertFields r)]

theorem hasIdentifier_seed (id : String) :
    hasIdentifier id (seed (lit [(ProjectRefIdentifierKey, Cond.eq (.str id))])) = true := by
  simp [hasIdentifier, seed, lit, mapSet, mapGet]

theorem decodeAlert_encodeAlert (a : AlertConfig) :
    decodeAlert (encodeAlert a) = alertAfterCodec a := by
  cases a with
  | mk Provider Settings => cases Settings <;> rfl

/-- Decoding a document that went through the `$set` of `Upsert` gives the ref as the
codec returns it, as soon as the document carries the ref's identifier. -/
theorem unmarshal_applySet_upsertFields (r : ProjectRef) (d : Doc)
    (hid : mapGet ProjectRefIdentifierKey d = some (.str r.Identifier)) :
    ProjectRef.unmarshal (applySet (upsertFields r) d) =
      { r with Admins := some (r.Admins.getD []), Alerts := alertsAfterCodec r.Alerts } := by
  have hnd := upsertFields_nodup r
  have hI : mapGet ProjectRefIdentifierKey (applySet (upsertFields r) d) =
      some (.str r.Identifier) := by
    rw [mapGet_applySet_of_not_mem _ _ _ (identifier_not_mem_upsertFields r), hid]
  have get : ∀ k v, (k, v) ∈ upsertFields r →
      mapGet k (applySet (upsertFields r) d) = some v :=
    fun k v h => mapGet_applySet_of_mem k v _ d hnd h
  have h1 := get ProjectRefRepoKindKey (Value.str r.RepoKind) (by simp [upsertFields])
  have h2 := get ProjectRefEnabledKey (Value.bool r.Enabled) (by simp [upsertFields])
  have h3 := get ProjectRefPrivateKey (Value.bool r.Private) (by simp [upsertFields])
  have h4 := get ProjectRefBatchTimeKey (Value.int r.BatchTime) (by simp [upsertFields])
  have h5 := get ProjectRefOwnerKey (Value.str r.Owner) (by simp [upsertFields])
  have h6 := get ProjectRefRepoKey (Value.str r.Repo) (by simp [upsertFields])
  have h7 := get ProjectRefBranchKey (Value.str r.Branch) (by simp [upsertFields])
  have h8 := get ProjectRefDisplayNameKey (Value.str r.DisplayName) (by simp [upsertFields])
  have h9 := get ProjectRefDeactivatePreviousKey (Value.bool r.DeactivatePrevious)
    (by simp [upsertFields])
  have h10 := get ProjectRefTrackedKey (Value.bool r.Tracked) (by simp [upsertFields])
  have h11 := get ProjectRefRemotePathKey (Value.str r.RemotePath) (by simp [upsertFields])
  have h12 := get ProjectRefLocalConfig (Value.str r.LocalConfig) (by simp [upsertFields])
  have h13 := get ProjectRefAlertsKey (alertsValue r.Alerts) (by simp [upsertFields])
  have h14 := get ProjectRefRepotrackerError (errValue r.RepotrackerError)
    (by simp [upsertFields])
  have h15 := get ProjectRefAdminsKey (adminsValue r.Admins) (by simp [upsertFields])
  have hfun : decodeAlert ∘ encodeAlert = alertAfterCodec := funext decodeAlert_encodeAlert
  have hal : ∀ m : List (String × Option (List AlertConfig)),
      (m.map (fun kv => (kv.1, (kv.2.getD []).map encodeAlert))).map
        (fun kv => (kv.1, some (kv.2.map decodeAlert))) =
      m.map (fun kv => (kv.1, some ((kv.2.getD []).map alertAfterCodec))) := by
    intro m
    rw [List.map_map]
    apply List.map_congr_left
    intro kv _
    show (kv.1, some (List.map decodeAlert (List.map encodeAlert (kv.2.getD [])))) = _
    rw [List.map_map, hfun]
  cases r with
  | mk Owner Repo Branch RepoKind Enabled Private BatchTime RemotePath Identifier DisplayName
      LocalConfig DeactivatePrevious Tracked Admins Alerts RepotrackerError =>
    cases RepotrackerError <;>
      simp only [ProjectRef.unmarshal, strField, boolField, intField, hI, h1, h2, h3, h4, h5,
        h6, h7, h8, h9, h10, h11, h12, h13, h14, h15, errValue, adminsValue, alertsValue,
        alertsAfterCodec, hal]

end model

namespace bson

open model

theorem encodeValues_decodeValues_encodeStrings (xs : List String) :
    encodeValues (decodeValues (encodeStrings xs)) = encodeStrings xs := by
  induction xs with
  | nil => rfl
  | cons x rest ih => simp only [encodeStrings, decodeValues, decode, encodeValues, encode, ih]

mutual

/-- Encoding what the decoder returned for an encoded value gives the same BSON value
again. -/
theorem encode_decode_encode : ∀ v : GoValue, encode (decode (encode v)) = encode v
  | .nil => rfl
  | .str _ => rfl
  | .bool _ => rfl
  | .int n => by
    by_cases h : -2147483648 ≤ n ∧ n ≤ 2147483647
    · simp only [encode, h, and_self, if_true, decode]
    · simp only [encode, h, if_false, decode]
  | .int64 _ => rfl
  | .float64 _ => rfl
  | .time unixNanos _ => by
    have h : unixNanos / 1000000 * 1000000 / 1000000 = unixNanos / 1000000 :=
      Int.mul_ediv_cancel _ (by decide)
    by_cases hz : unixNanos / 1000000 = -62135596800000
    · simp only [encode, decode, hz, if_true]
      rfl
    · simp only [encode, decode, hz, if_false, h]
  | .nilStrings => rfl
  | .strings xs => by
    simp only [encode, decode, encodeValues_decodeValues_encodeStrings]
  | .nilValues => rfl
  | .values xs => by
    simp only [encode, decode, encodeValues_decodeValues_encodeValues xs]
  | .nilM => rfl
  | .m entries => by
    simp only [encode, decode, encodeFields_decodeFields_encodeFields entries]

theorem encodeValues_decodeValues_encodeValues :
    ∀ xs : GoValues, encodeValues (decodeValues (encodeValues xs)) = encodeValues xs
  | .nil => rfl
  | .cons v rest => by
    simp only [encodeValues, decodeValues, encode_decode_encode v,
      encodeValues_decodeValues_encodeValues rest]

theorem encodeFields_decodeFields_encodeFields :
    ∀ fs : GoFields, encodeFields (decodeFields (encodeFields fs)) = encodeFields fs
  | .nil => rfl
  | .cons k v rest => by
    simp only [encodeFields, decodeFields, encode_decode_encode v,
      encodeFields_decodeFields_encodeFields rest]

end

end bson

namespace model

open bson

theorem settingsAfterCodec_idem (s : Option GoFields) :
    settingsAfterCodec (settingsAfterCodec s) = settingsAfterCodec s := by
  simp only [settingsAfterCodec, Option.getD_some, encodeFields_decodeFields_encodeFields]

theorem alertAfterCodec_idem (a : AlertConfig) :
    alertAfterCodec (alertAfterCodec a) = alertAfterCodec a := by
  simp only [alertAfterCodec, settingsAfterCodec_idem]

/-- The `Alerts` map the codec returned is returned as it is when written and read
again. -/
theorem alertsAfterCodec_idem (alerts : Option (List (String × Option (List AlertConfig)))) :
    alertsAfterCodec (alertsAfterCodec alerts) = alertsAfterCodec alerts := by
  have hfun : alertAfterCodec ∘ alertAfterCodec = alertAfterCodec :=
    funext alertAfterCodec_idem
  simp only [alertsAfterCodec, Option.getD_some, List.map_map]
  congr 1
  apply List.map_congr_left
  intro kv _
  show (kv.1, some (List.map alertAfterCodec (List.map alertAfterCodec (kv.2.getD [])))) = _
  rw [List.map_map, hfun]

theorem FindOneProjectRef_eq (store : db.Collection) (identifier : String) :
    FindOneProjectRef none store identifier =
      match (store.filter (hasIdentifier identifier)).head? with
      | none => (none, none)
      | some d => (some (ProjectRef.unmarshal d), none) := by
  simp only [FindOneProjectRef, db.FindOne_plain, satisfies_identifier_fun]
  cases (store.filter (hasIdentifier identifier)).head? <;> simp

theorem upsert_pres (r : ProjectRef) (d : Doc)
    (h : satisfies (lit [(ProjectRefIdentifierKey, Cond.eq (.str r.Identifier))]) d = true) :
    satisfies (lit [(ProjectRefIdentifierKey, Cond.eq (.str r.Identifier))])
      (applySet (upsertFields r) d) = true := by
  rw [satisfies_identifier] at h ⊢
  rw [hasIdentifier_applySet]
  exact h

theorem upsert_seed (r : ProjectRef) :
    satisfies (lit [(ProjectRefIdentifierKey, Cond.eq (.str r.Identifier))])
      (applySet (upsertFields r)
        (seed (lit [(ProjectRefIdentifierKey, Cond.eq (.str r.Identifier))]))) = true := by
  rw [satisfies_identifier, hasIdentifier_applySet]
  exact hasIdentifier_seed _

theorem countP_other_upsertFirst (r : ProjectRef) (id : String) (hne : id ≠ r.Identifier)
    (c : db.Collection) :
    (db.upsertFirst (lit [(ProjectRefIdentifierKey, Cond.eq (.str r.Identifier))])
      (upsertFields r) c).countP (hasIdentifier id) = c.countP (hasIdentifier id) := by
  induction c with
  | nil =>
    have h : hasIdentifier id (applySet (upsertFields r)
        (seed (lit [(ProjectRefIdentifierKey, Cond.eq (.str r.Identifier))]))) = false := by
      rw [hasIdentifier_applySet]
      simp [hasIdentifier, seed, lit, mapSet, mapGet]
      exact fun e => hne e.symm
    simp [db.upsertFirst, h]
  | cons d0 rest ih =>
    by_cases h : satisfies (lit [(ProjectRefIdentifierKey, Cond.eq (.str r.Identifier))]) d0 = true
    · simp only [db.upsertFirst, h, if_true, List.countP_cons, hasIdentifier_applySet]
    · simp only [db.upsertFirst, h, if_false, Bool.false_eq_true, List.countP_cons, ih]

theorem untrack_step_idem (activeProjects : List String) (d : Doc) :
    (fun d => if satisfies (lit [(ProjectRefIdentifierKey, Cond.nin activeProjects)]) d = true
        then applySet (lit [(ProjectRefTrackedKey, Value.bool false)]) d else d)
      ((fun d => if satisfies (lit [(ProjectRefIdentifierKey, Cond.nin activeProjects)]) d = true
        then applySet (lit [(ProjectRefTrackedKey, Value.bool false)]) d else d) d) =
    (fun d => if satisfies (lit [(ProjectRefIdentifierKey, Cond.nin activeProjects)]) d = true
        then applySet (lit [(ProjectRefTrackedKey, Value.bool false)]) d else d) d := by
  have hlit : (lit [(ProjectRefTrackedKey, Value.bool false)] : M) =
      [(ProjectRefTrackedKey, Value.bool false)] := rfl
  have hkey : ¬ ProjectRefTrackedKey = ProjectRefIdentifierKey := by decide
  by_cases h : satisfies (lit [(ProjectRefIdentifierKey, Cond.nin activeProjects)]) d = true
  · have h' : satisfies (lit [(ProjectRefIdentifierKey, Cond.nin activeProjects)])
        (mapSet ProjectRefTrackedKey (Value.bool false) d) = true := by
      rw [satisfies_nin] at h ⊢
      rw [mapGet_mapSet, if_neg hkey]
      exact h
    simp only [h, hlit, applySet, List.foldl, if_true, h', mapSet_of_mapGet _ _ _
      (show mapGet ProjectRefTrackedKey (mapSet ProjectRefTrackedKey (Value.bool false) d) =
        some (Value.bool false) by rw [mapGet_mapSet, if_pos rfl])]
  · simp only [h, if_false, Bool.false_eq_true]

theorem UntrackStaleProjectRefs_ok (fault : Option String) (store store' : db.Collection)
    (activeProjects : List String)
    (h : UntrackStaleProjectRefs fault store activeProjects = .ok store') :
    UntrackStaleProjectRefs none store activeProjects = .ok store' := by
  cases fault with
  | none => exact h
  | some msg => simp [UntrackStaleProjectRefs, db.UpdateAll] at h

theorem Upsert_ok (fault : Option String) (store store' : db.Collection) (r : ProjectRef)
    (h : r.Upsert fault store = .ok store') : r.Upsert none store = .ok store' := by
  cases fault with
  | none => exact h
  | some msg => simp [ProjectRef.Upsert, db.Upsert] at h

/-- C1: a successful `UntrackStaleProjectRefs activeProjects` keeps the documents of the
store, position by position: a document whose identifier is in `activeProjects` is
unchanged; any other document gets `tracked = false` and keeps every other field (its
decoded ref is the old one with `Tracked := false`); so no ref goes from untracked to
tracked. A call succeeds when the round trip does not fail, and every successful call
leaves this same store. -/
theorem UntrackStaleProjectRefs_untracks_exactly_stale (store : db.Collection)
    (activeProjects : List String) :
    ∃ store', UntrackStaleProjectRefs none store activeProjects = .ok store' ∧
      (∀ fault s, UntrackStaleProjectRefs fault store activeProjects = .ok s → s = store') ∧
      List.Forall₂ (fun d d' =>
        ((∃ a ∈ activeProjects, mapGet ProjectRefIdentifierKey d = some (.str a)) → d' = d) ∧
        ((¬ ∃ a ∈ activeProjects, mapGet ProjectRefIdentifierKey d = some (.str a)) →
          mapGet ProjectRefTrackedKey d' = some (.bool false) ∧
          (∀ k, k ≠ ProjectRefTrackedKey → mapGet k d' = mapGet k d) ∧
          ProjectRef.unmarshal d' = { ProjectRef.unmarshal d with Tracked := false }) ∧
        ((ProjectRef.unmarshal d).Tracked = false → (ProjectRef.unmarshal d').Tracked = false))
        store store' := by
  refine ⟨_, rfl, fun fault s h => ?_, ?_⟩
  · have h' := UntrackStaleProjectRefs_ok fault store s activeProjects h
    exact (Except.ok.inj h').symm
  rw [List.forall₂_map_right_iff, List.forall₂_same]
  intro d _
  have hlit : (lit [(ProjectRefTrackedKey, Value.bool false)] : M) =
      [(ProjectRefTrackedKey, Value.bool false)] := rfl
  by_cases h : ∃ a ∈ activeProjects, mapGet ProjectRefIdentifierKey d = some (.str a)
  · have hs : satisfies (lit [(ProjectRefIdentifierKey, Cond.nin activeProjects)]) d = false := by
      rw [Bool.eq_false_iff, ne_eq, satisfies_nin]
      exact not_not.mpr h
    simp only [hs]
    exact ⟨fun _ => rfl, fun h' => absurd h h', fun h' => by simpa using h'⟩
  · have hs : satisfies (lit [(ProjectRefIdentifierKey, Cond.nin activeProjects)]) d = true :=
      (satisfies_nin _ _).mpr h
    simp only [hs, hlit, applySet, List.foldl, if_true]
    refine ⟨fun h' => absurd h' h, fun _ => ⟨?_, ?_, unmarshal_untrack d⟩, fun _ => ?_⟩
    · simp [mapGet_mapSet]
    · intro k hk
      rw [mapGet_mapSet, if_neg (fun e => hk e.symm)]
    · rw [unmarshal_untrack]

/-- C1, the scenario of the spec: `a`, `b`, `c` all tracked, active list `[a, c]`: the
call succeeds and only `b` becomes untracked. -/
theorem UntrackStaleProjectRefs_scenario_abc :
    (∃ store', UntrackStaleProjectRefs none storeABC ["a", "c"] = .ok store' ∧
      store'.map (fun d => ((ProjectRef.unmarshal d).Identifier, (ProjectRef.unmarshal d).Tracked))
        = [("a", true), ("b", false), ("c", true)] ∧
      store'.map ProjectRef.unmarshal = [refA, { refB with Tracked := false }, refC]) ∧
    storeABC.map ProjectRef.unmarshal = [refA, refB, refC] := by
  obtain ⟨s, hs, _, _⟩ := UntrackStaleProjectRefs_untracks_exactly_stale storeABC ["a", "c"]
  refine ⟨⟨s, hs, ?_⟩, by decide⟩
  have h2 : UntrackStaleProjectRefs none storeABC ["a", "c"] = .ok
      (storeABC.map (fun d =>
        if satisfies (lit [(ProjectRefIdentifierKey, Cond.nin ["a", "c"])]) d = true
        then applySet (lit [(ProjectRefTrackedKey, Value.bool false)]) d else d)) := rfl
  rw [h2] at hs
  injection hs with hs
  subst hs
  decide

/-- C6: `UntrackStaleProjectRefs` is idempotent: a second successful call with the
same `activeProjects` leaves the store exactly as the first call left it; so whenever
two successive calls succeed, the store after the second is the store after the
first. -/
theorem UntrackStaleProjectRefs_idempotent (store : db.Collection)
    (activeProjects : List String) :
    ∃ store', UntrackStaleProjectRefs none store activeProjects = .ok store' ∧
      UntrackStaleProjectRefs none store' activeProjects = .ok store' ∧
      (∀ fault1 fault2 s1 s2, UntrackStaleProjectRefs fault1 store activeProjects = .ok s1 →
        UntrackStaleProjectRefs fault2 s1 activeProjects = .ok s2 → s2 = s1) := by
  have hidem : ∀ s : db.Collection, UntrackStaleProjectRefs none
      (s.map (fun d =>
        if satisfies (lit [(ProjectRefIdentifierKey, Cond.nin activeProjects)]) d = true
        then applySet (lit [(ProjectRefTrackedKey, Value.bool false)]) d else d))
      activeProjects = .ok (s.map (fun d =>
        if satisfies (lit [(ProjectRefIdentifierKey, Cond.nin activeProjects)]) d = true
        then applySet (lit [(ProjectRefTrackedKey, Value.bool false)]) d else d)) := by
    intro s
    simp only [UntrackStaleProjectRefs, db.UpdateAll, List.map_map]
    congr 1
    apply List.map_congr_left
    intro d _
    exact untrack_step_idem activeProjects d
  refine ⟨_, rfl, hidem store, fun fault1 fault2 s1 s2 h1 h2 => ?_⟩
  have h1' := UntrackStaleProjectRefs_ok fault1 store s1 activeProjects h1
  have h2' := UntrackStaleProjectRefs_ok fault2 s1 s2 activeProjects h2
  have e1 : s1 = _ := (Except.ok.inj h1').symm
  rw [e1, hidem store] at h2'
  rw [e1]
  exact (Except.ok.inj h2').symm

/-- C2, as the code has it: after a successful `r.Upsert()`, `FindOneProjectRef
r.Identifier` returns, with no error, `r` as the BSON codec returns it: equal to `r` in
`Owner`, `Repo`, `Branch`, `RepoKind`, `Enabled`, `Private`, `BatchTime`, `RemotePath`,
`Identifier`, `DisplayName`, `LocalConfig`, `DeactivatePrevious`, `Tracked` and
`RepotrackerError`; `Admins` with the same strings and `Alerts` with the same triggers
and alerts, a `nil` slice or map coming back empty and not `nil` and every settings
value coming back as the decoder types it. The returned ref is `r` itself when `r.Admins`
is not `nil` and `r.Alerts` is as the codec returns it, which is so of every ref the
lookup returned. This holds on every store: when
a document with that identifier existed the store keeps its size (the document is
overwritten), when none did the store grows by the new document. A call succeeds when
the round trip does not fail, and every successful call leaves this same store. -/
theorem Upsert_then_FindOneProjectRef (store : db.Collection) (r : ProjectRef) :
    ∃ store', r.Upsert none store = .ok store' ∧
      (∀ fault s, r.Upsert fault store = .ok s → s = store') ∧
      FindOneProjectRef none store' r.Identifier =
        (some { r with Admins := some (r.Admins.getD []),
                       Alerts := alertsAfterCodec r.Alerts }, none) ∧
      (r.Admins ≠ none → alertsAfterCodec r.Alerts = r.Alerts →
        FindOneProjectRef none store' r.Identifier = (some r, none)) ∧
      alertsAfterCodec (alertsAfterCodec r.Alerts) = alertsAfterCodec r.Alerts ∧
      ((∃ d ∈ store, hasIdentifier r.Identifier d = true) → store'.length = store.length) ∧
      ((∀ d ∈ store, hasIdentifier r.Identifier d = false) →
        store'.length = store.length + 1) := by
  have hfind : FindOneProjectRef none
      (db.upsertFirst (lit [(ProjectRefIdentifierKey, Cond.eq (.str r.Identifier))])
        (upsertFields r) store) r.Identifier =
      (some { r with Admins := some (r.Admins.getD []),
                     Alerts := alertsAfterCodec r.Alerts }, none) := by
    obtain ⟨d, hd, hh⟩ := db.head_filter_upsertFirst _ (upsertFields r) store
      (upsert_pres r) (upsert_seed r)
    rw [FindOneProjectRef_eq, ← satisfies_identifier_fun, hh]
    have hid : mapGet ProjectRefIdentifierKey d = some (.str r.Identifier) := by
      rcases hd with ⟨_, hs⟩ | hd
      · rw [satisfies_identifier] at hs
        simpa [hasIdentifier] using hs
      · have := hasIdentifier_seed r.Identifier
        rw [← hd] at this
        simpa [hasIdentifier] using this
    simp only [unmarshal_applySet_upsertFields r d hid]
  refine ⟨_, Upsert_eq r store, fun fault s h => ?_, hfind, fun hA hAl => ?_,
    alertsAfterCodec_idem r.Alerts, ?_, ?_⟩
  · have h' := Upsert_ok fault store s r h
    rw [Upsert_eq] at h'
    exact (Except.ok.inj h').symm
  · rw [hfind, hAl]
    cases hadm : r.Admins with
    | none => exact absurd hadm hA
    | some xs =>
      simp only [Option.getD_some]
      rw [← hadm]
  · rintro ⟨d, hd, hs⟩
    rw [db.length_upsertFirst, satisfies_identifier_fun, if_neg]
    rw [List.countP_eq_zero]
    exact fun h => by simpa [hs] using h d hd
  · intro h
    rw [db.length_upsertFirst, satisfies_identifier_fun, if_pos]
    rw [List.countP_eq_zero]
    exact fun d hd => by simp [h d hd]

/-- C2 at concrete refs: upserting a changed `b`, whose `Admins` and `Alerts` are not
`nil`, into the store of `a`, `b`, `c` overwrites it in place and the lookup returns
it as it is; upserting the new `e` adds one document, and the lookup returns `e` with
its `[]string` setting as a `[]interface{}` and its large `int` setting as an
`int64`. -/
theorem Upsert_then_FindOneProjectRef_example :
    (∃ store', ProjectRef.Upsert none storeABC { refB with Owner := "o", Admins := some ["me"] }
        = .ok store' ∧
      FindOneProjectRef none store' "b" =
        (some { refB with Owner := "o", Admins := some ["me"] }, none) ∧
      store'.length = 3) ∧
    (∃ store', ProjectRef.Upsert none storeABC refE = .ok store' ∧
      FindOneProjectRef none store' "e" =
        (some { refE with
          Alerts := some [("task-failed", some [
            { Provider := "email",
              Settings := some (.cons "recipients"
                (.values (.cons (.str "a@example.com") .nil))
                (.cons "quota" (.int64 5000000000) .nil)) }])] }, none) ∧
      store'.length = 4) := by
  obtain ⟨s1, h1, _, _, hf1, _, hl1, _⟩ :=
    Upsert_then_FindOneProjectRef storeABC { refB with Owner := "o", Admins := some ["me"] }
  obtain ⟨s2, h2, _, hf2, _, _, _, hl2⟩ := Upsert_then_FindOneProjectRef storeABC refE
  exact ⟨⟨s1, h1, hf1 (by decide) (by decide), hl1 ⟨refB.marshal, by decide, by decide⟩⟩,
    ⟨s2, h2, hf2, hl2 (by decide)⟩⟩

/-- C2 as stated fails at the ref `d` that only has an identifier: upserted into the
empty store and looked up, it comes back with `Admins` and `Alerts` empty and not
`nil`, which is not the ref that was upserted. -/
theorem Upsert_then_FindOneProjectRef_nil_comes_back_empty :
    ∃ store', ProjectRef.Upsert none [] refD = .ok store' ∧
      FindOneProjectRef none store' "d" =
        (some { refD with Admins := some [], Alerts := some [] }, none) ∧
      FindOneProjectRef none store' "d" ≠ (some refD, none) := by
  refine ⟨_, Upsert_eq refD [], ?_, ?_⟩ <;> decide

/-- C6 at a concrete store: untracking with the active list `[a, c]` twice leaves
what the first call left. -/
theorem UntrackStaleProjectRefs_idempotent_example :
    ∃ store', UntrackStaleProjectRefs none storeABC ["a", "c"] = .ok store' ∧
      UntrackStaleProjectRefs none store' ["a", "c"] = .ok store' ∧
      store'.map ProjectRef.unmarshal = [refA, { refB with Tracked := false }, refC] := by
  obtain ⟨s, h1, h2, _⟩ := UntrackStaleProjectRefs_idempotent storeABC ["a", "c"]
  refine ⟨s, h1, h2, ?_⟩
  have h3 : UntrackStaleProjectRefs none storeABC ["a", "c"] = .ok
      (storeABC.map (fun d =>
        if satisfies (lit [(ProjectRefIdentifierKey, Cond.nin ["a", "c"])]) d = true
        then applySet (lit [(ProjectRefTrackedKey, Value.bool false)]) d else d)) := rfl
  rw [h3] at h1
  injection h1 with h1
  subst h1
  decide

/-- C7: on a store with at most one document per identifier, `Upsert` is idempotent
and keyed by `Identifier`: a second successful `r.Upsert()` leaves the store as the
first one left it; that store holds exactly one document with `r.Identifier`; it has
one document more than before when none matched and as many otherwise; and it still
holds at most one document per identifier. Whenever two successive calls succeed, the
store after the second is the store after the first. -/
theorem Upsert_idempotent (store : db.Collection) (r : ProjectRef)
    (huniq : UniqueIdentifiers store) :
    ∃ store', r.Upsert none store = .ok store' ∧
      r.Upsert none store' = .ok store' ∧
      (∀ fault1 fault2 s1 s2, r.Upsert fault1 store = .ok s1 → r.Upsert fault2 s1 = .ok s2 →
        s2 = s1) ∧
      store'.countP (hasIdentifier r.Identifier) = 1 ∧
      store'.length = store.length +
        (if store.countP (hasIdentifier r.Identifier) = 0 then 1 else 0) ∧
      UniqueIdentifiers store' := by
  have hcount : (db.upsertFirst (lit [(ProjectRefIdentifierKey, Cond.eq (.str r.Identifier))])
      (upsertFields r) store).countP (hasIdentifier r.Identifier) = 1 := by
    have h := db.countP_upsertFirst _ (upsertFields r) store (upsert_pres r) (upsert_seed r)
    rw [satisfies_identifier_fun] at h
    rw [h]
    have := huniq r.Identifier
    split <;> omega
  have hidem := db.upsertFirst_idem
    (lit [(ProjectRefIdentifierKey, Cond.eq (.str r.Identifier))]) (upsertFields r) store
    (upsertFields_nodup r) (upsert_pres r) (upsert_seed r)
  refine ⟨_, Upsert_eq r store, ?_, fun fault1 fault2 s1 s2 h1 h2 => ?_, hcount, ?_, ?_⟩
  · rw [Upsert_eq, hidem]
  · have h1' := Upsert_ok fault1 store s1 r h1
    have h2' := Upsert_ok fault2 s1 s2 r h2
    rw [Upsert_eq] at h1' h2'
    have e1 : s1 = _ := (Except.ok.inj h1').symm
    rw [e1, hidem] at h2'
    rw [e1]
    exact (Except.ok.inj h2').symm
  · rw [db.length_upsertFirst, satisfies_identifier_fun]
    split <;> rfl
  · intro id
    by_cases hid : id = r.Identifier
    · rw [hid, hcount]
    · rw [countP_other_upsertFirst r id hid]
      exact huniq id

/-- C7 at a concrete store: upserting a changed `a` into the store holding only
`a`. -/
theorem Upsert_idempotent_example :
    UniqueIdentifiers [refA.marshal] ∧
    ∃ store', ProjectRef.Upsert none [refA.marshal] { refA with Branch := "main" } = .ok store' ∧
      ProjectRef.Upsert none store' { refA with Branch := "main" } = .ok store' ∧
      (∀ fault1 fault2 s1 s2,
        ProjectRef.Upsert fault1 [refA.marshal] { refA with Branch := "main" } = .ok s1 →
        ProjectRef.Upsert fault2 s1 { refA with Branch := "main" } = .ok s2 → s2 = s1) ∧
      store'.countP (hasIdentifier "a") = 1 ∧
      store'.length = [refA.marshal].length +
        (if [refA.marshal].countP (hasIdentifier "a") = 0 then 1 else 0) ∧
      UniqueIdentifiers store' :=
  have h : UniqueIdentifiers [refA.marshal] := fun _ => List.countP_le_length _
  ⟨h, Upsert_idempotent [refA.marshal] { refA with Branch := "main" } h⟩

/-- C10: `FindOneProjectRef` returns `(nil, nil)` when no stored document has the
identifier; when one has, it returns the decoded first such document, whose
`Identifier` is the one asked for, with a nil error; and an error of the storage
layer other than `mgo.ErrNotFound` reaches the caller as it is. -/
theorem FindOneProjectRef_not_found_is_nil (store : db.Collection) (identifier : String) :
    ((∀ d ∈ store, hasIdentifier identifier d = false) →
      FindOneProjectRef none store identifier = (none, none)) ∧
    ((∃ d ∈ store, hasIdentifier identifier d = true) →
      ∃ d ∈ store, hasIdentifier identifier d = true ∧
        (ProjectRef.unmarshal d).Identifier = identifier ∧
        FindOneProjectRef none store identifier = (some (ProjectRef.unmarshal d), none)) ∧
    (∀ fault : Option String,
      (db.FindOne fault store (lit [(ProjectRefIdentifierKey, Cond.eq (.str identifier))])
          db.NoProjection db.NoSort ProjectRef.unmarshal {}).2 ≠ some GoError.ErrNotFound →
      (FindOneProjectRef fault store identifier).2 =
        (db.FindOne fault store (lit [(ProjectRefIdentifierKey, Cond.eq (.str identifier))])
          db.NoProjection db.NoSort ProjectRef.unmarshal {}).2) ∧
    (∀ msg : String,
      (FindOneProjectRef (some msg) store identifier).2 = some (GoError.other msg)) := by
  refine ⟨?_, ?_, ?_, ?_⟩
  · intro h
    rw [FindOneProjectRef_eq]
    have : store.filter (hasIdentifier identifier) = [] := by
      rw [List.filter_eq_nil_iff]
      exact fun d hd => by simp [h d hd]
    rw [this]
    rfl
  · rintro ⟨d0, hd0, hs0⟩
    rw [FindOneProjectRef_eq]
    cases hf : store.filter (hasIdentifier identifier) with
    | nil =>
      rw [List.filter_eq_nil_iff] at hf
      exact absurd hs0 (hf d0 hd0)
    | cons d rest =>
      have hmem : d ∈ store.filter (hasIdentifier identifier) := by
        rw [hf]
        exact List.mem_cons_self _ _
      rw [List.mem_filter] at hmem
      refine ⟨d, hmem.1, hmem.2, ?_, rfl⟩
      have := hmem.2
      simp only [hasIdentifier, decide_eq_true_eq] at this
      simp [ProjectRef.unmarshal, strField, this]
  · intro fault h
    simp only [FindOneProjectRef, if_neg h]
  · intro msg
    simp [FindOneProjectRef, db.FindOne]

/-- C10, the scenario of the spec: looking up `missing` in an empty store gives no ref
and no error. -/
theorem FindOneProjectRef_missing_on_empty_store :
    FindOneProjectRef none [] "missing" = (none, none) :=
  (FindOneProjectRef_not_found_is_nil [] "missing").1 (fun _ h => absurd h (List.not_mem_nil _))

end model

namespace bson

theorem orderedInsert_congr (r s : Doc → Doc → Prop) [DecidableRel r] [DecidableRel s]
    (a : Doc) (l : List Doc) (h : ∀ b ∈ l, r a b ↔ s a b) :
    l.orderedInsert r a = l.orderedInsert s a := by
  induction l with
  | nil => rfl
  | cons b t ih =>
    have hb := h b (List.mem_cons_self _ _)
    have ht := ih (fun c hc => h c (List.mem_cons_of_mem _ hc))
    by_cases hr : r a b
    · simp [List.orderedInsert, hr, hb.mp hr]
    · have hs : ¬ s a b := fun hs => hr (hb.mpr hs)
      simp [List.orderedInsert, hr, hs, ht]

theorem insertionSort_congr (r s : Doc → Doc → Prop) [DecidableRel r] [DecidableRel s]
    (l : List Doc) (h : ∀ a ∈ l, ∀ b ∈ l, r a b ↔ s a b) :
    l.insertionSort r = l.insertionSort s := by
  induction l with
  | nil => rfl
  | cons a t ih =>
    have ht := ih (fun x hx y hy => h x (List.mem_cons_of_mem _ hx) y (List.mem_cons_of_mem _ hy))
    simp only [List.insertionSort]
    rw [ht]
    apply orderedInsert_congr
    intro b hb
    rw [List.mem_insertionSort] at hb
    exact h a (List.mem_cons_self _ _) b (List.mem_cons_of_mem _ hb)

theorem sorted_insertionSort_ascOn (field : String) (l : List Doc) :
    (l.insertionSort (ascOn field)).Sorted (ascOn field) := by
  haveI : IsTotal Doc (ascOn field) := ⟨fun a b => le_total _ _⟩
  haveI : IsTrans Doc (ascOn field) := ⟨fun a b c hab hbc => le_trans hab hbc⟩
  exact List.sorted_insertionSort _ l

theorem sorted_insertionSort_descOn (field : String) (l : List Doc) :
    (l.insertionSort (descOn field)).Sorted (descOn field) := by
  haveI : IsTotal Doc (descOn field) := ⟨fun a b => le_total _ _⟩
  haveI : IsTrans Doc (descOn field) := ⟨fun a b c hab hbc => le_trans hbc hab⟩
  exact List.sorted_insertionSort _ l

end bson

namespace model

open bson

/-- `FindAllProjectRefs` returns every project ref of the store, as its comment says:
the limit `db.NoLimit` it passes does not cut the result. -/
theorem FindAllProjectRefs_returns_all (store : db.Collection) :
    FindAllProjectRefs none store = (store.map ProjectRef.unmarshal, none) := by
  have hp : project db.NoProjection = id := by
    funext d
    simp [project, db.NoProjection]
  have hs : satisfies (lit ([] : Query)) = fun _ => true := by
    funext d
    rfl
  simp [FindAllProjectRefs, db.FindAll, db.run, hp, hs, db.NoSort, sortDocs, db.NoSkip,
    db.applyLimit, db.limitTo]

theorem holds_lt (key : String) (fv : Option Value) :
    (Cond.lt key).holds fv =
      match fv with
      | some (.str s) => decide (s < key)
      | _ => false := by
  cases fv with
  | none => rfl
  | some v =>
    cases v <;> simp only [Cond.holds]
    rw [decide_eq_decide]
    exact String.lt_iff_toList_lt.symm

theorem holds_gte (key : String) (fv : Option Value) :
    (Cond.gte key).holds fv =
      match fv with
      | some (.str s) => decide (key ≤ s)
      | _ => false := by
  cases fv with
  | none => rfl
  | some v =>
    cases v <;> simp only [Cond.holds]
    rw [decide_eq_decide]
    exact String.le_iff_toList_le.symm

theorem holds_eq_false (fv : Option Value) :
    (Cond.eq (.bool false)).holds fv = decide (fv = some (.bool false)) := by
  cases fv <;> simp [Cond.holds]

theorem findProjectRefsFilter_eq (key : String) (sortDir : Int) (isAuthenticated : Bool) :
    findProjectRefsFilter key sortDir isAuthenticated =
      (if isAuthenticated then [] else [(ProjectRefPrivateKey, Cond.eq (.bool false))]) ++
        [(ProjectRefIdentifierKey, if sortDir < 0 then Cond.lt key else Cond.gte key)] := by
  have hk : ¬ ProjectRefPrivateKey = ProjectRefIdentifierKey := by decide
  have hk2 : ProjectIdentifierKey = ProjectRefIdentifierKey := rfl
  cases isAuthenticated <;> by_cases hdir : sortDir < 0 <;>
    simp [findProjectRefsFilter, lit, mapSet, hk, hdir, hk2]

theorem satisfies_findProjectRefsFilter (key : String) (sortDir : Int) (isAuthenticated : Bool)
    (d : Doc) :
    satisfies (findProjectRefsFilter key sortDir isAuthenticated) d =
      eligible key sortDir isAuthenticated d := by
  rw [findProjectRefsFilter_eq]
  cases isAuthenticated <;> by_cases hdir : sortDir < 0 <;>
    simp only [satisfies, hdir, if_true, if_false, List.nil_append, List.cons_append,
      List.all_cons, List.all_nil, Bool.and_true, eligible, Bool.false_or, Bool.true_or,
      Bool.true_and, holds_lt, holds_gte, holds_eq_false, Bool.false_eq_true]

theorem sortDocs_findProjectRefsSort (sortDir : Int) (l : List Doc) :
    sortDocs [findProjectRefsSort sortDir] l =
      if sortDir < 0 then l.insertionSort (descOn ProjectRefIdentifierKey)
      else l.insertionSort (ascOn ProjectRefIdentifierKey) := by
  have h1 : parseSort ("-" ++ ProjectIdentifierKey) = (true, ProjectRefIdentifierKey) := by
    decide
  have h2 : parseSort ProjectIdentifierKey = (false, ProjectRefIdentifierKey) := by decide
  by_cases hdir : sortDir < 0
  · simp only [sortDocs, List.foldr, findProjectRefsSort, hdir, if_true, sortBy, h1]
  · simp only [sortDocs, List.foldr, findProjectRefsSort, hdir, if_false, sortBy, h2,
      Bool.false_eq_true]

theorem FindProjectRefs_eq (store : db.Collection) (key : String) (limit sortDir : Int)
    (isAuthenticated : Bool) :
    FindProjectRefs none store key limit sortDir isAuthenticated =
      ((db.applyLimit limit
        (if sortDir < 0 then
          (store.filter (eligible key sortDir isAuthenticated)).insertionSort
            (descOn ProjectRefIdentifierKey)
        else
          (store.filter (eligible key sortDir isAuthenticated)).insertionSort
            (ascOn ProjectRefIdentifierKey))).map ProjectRef.unmarshal, none) := by
  have hp : project db.NoProjection = id := by
    funext d
    simp [project, db.NoProjection]
  have hf : satisfies (findProjectRefsFilter key sortDir isAuthenticated) =
      eligible key sortDir isAuthenticated :=
    funext (satisfies_findProjectRefsFilter key sortDir isAuthenticated)
  have hunfold : FindProjectRefs none store key limit sortDir isAuthenticated =
      db.FindAll none store (findProjectRefsFilter key sortDir isAuthenticated)
        db.NoProjection [findProjectRefsSort sortDir] db.NoSkip limit
        ProjectRef.unmarshal [] := by
    by_cases hdir : sortDir < 0 <;>
      simp only [FindProjectRefs, findProjectRefsFilter, findProjectRefsSort, hdir, if_true,
        if_false]
  rw [hunfold]
  simp only [db.FindAll, db.run, hp, List.map_id, hf,
    sortDocs_findProjectRefsSort, db.NoSkip, Int.toNat_zero, List.drop_zero]

theorem eligible_identifier (key : String) (sortDir : Int) (isAuthenticated : Bool) (d : Doc)
    (h : eligible key sortDir isAuthenticated d = true) :
    mapGet ProjectRefIdentifierKey d = some (.str (identifierOf d)) ∧
      (sortDir < 0 → identifierOf d < key) ∧ (¬ sortDir < 0 → key ≤ identifierOf d) := by
  simp only [eligible, Bool.and_eq_true] at h
  have h2 := h.2
  cases hv : mapGet ProjectRefIdentifierKey d with
  | none => simp [hv] at h2
  | some v =>
    cases v <;> simp only [hv, Bool.false_eq_true] at h2
    case str s =>
      have hs : identifierOf d = s := by simp [identifierOf, strField, hv]
      rw [hs]
      refine ⟨rfl, fun hd => ?_, fun hd => ?_⟩
      · simpa [hd] using h2
      · simpa [hd] using h2

theorem eligible_public (key : String) (sortDir : Int) (d : Doc)
    (h : eligible key sortDir false d = true) : (ProjectRef.unmarshal d).Private = false := by
  simp only [eligible, Bool.and_eq_true, Bool.false_or, decide_eq_true_eq] at h
  simp [ProjectRef.unmarshal, boolField, h.1]

theorem ascOn_identifier_iff (a b : Doc)
    (ha : mapGet ProjectRefIdentifierKey a = some (.str (identifierOf a)))
    (hb : mapGet ProjectRefIdentifierKey b = some (.str (identifierOf b))) :
    ascOn ProjectRefIdentifierKey a b ↔ identifierOf a ≤ identifierOf b := by
  rw [ascOn, ha, hb, String.le_iff_toList_le]
  simp [sortKey, Prod.Lex.le_iff, String.toList]

theorem descOn_identifier_iff (a b : Doc)
    (ha : mapGet ProjectRefIdentifierKey a = some (.str (identifierOf a)))
    (hb : mapGet ProjectRefIdentifierKey b = some (.str (identifierOf b))) :
    descOn ProjectRefIdentifierKey a b ↔ identifierOf b ≤ identifierOf a :=
  ascOn_identifier_iff b a hb ha

theorem applyLimit_pos {α : Type} (limit : Int) (h : 0 < limit) (l : List α) :
    db.applyLimit limit l = l.take limit.toNat := by
  have h0 : ¬ limit = db.NoLimit := by
    simp only [db.NoLimit]
    omega
  have hn : limit.natAbs = limit.toNat := by omega
  simp only [db.applyLimit, db.limitTo, h0, if_false, hn]

/-- The sorted scan behind a page, and what holds of it in both directions. -/
theorem scan_sorted (store : db.Collection) (key : String) (sortDir : Int)
    (isAuthenticated : Bool) :
    ∃ scan : List Doc,
      (∀ limit, FindProjectRefs none store key limit sortDir isAuthenticated =
        ((db.applyLimit limit scan).map ProjectRef.unmarshal, none)) ∧
      scan.Perm (store.filter (eligible key sortDir isAuthenticated)) ∧
      (sortDir < 0 → scan.Pairwise (fun a b => identifierOf b ≤ identifierOf a)) ∧
      (¬ sortDir < 0 → scan.Pairwise (fun a b => identifierOf a ≤ identifierOf b)) := by
  have hmem : ∀ (r : Doc → Doc → Prop) [DecidableRel r],
      ∀ x ∈ (store.filter (eligible key sortDir isAuthenticated)).insertionSort r,
        mapGet ProjectRefIdentifierKey x = some (.str (identifierOf x)) := by
    intro r _ x hx
    rw [List.mem_insertionSort, List.mem_filter] at hx
    exact (eligible_identifier key sortDir isAuthenticated x hx.2).1
  by_cases hdir : sortDir < 0
  · refine ⟨(store.filter (eligible key sortDir isAuthenticated)).insertionSort
      (descOn ProjectRefIdentifierKey), fun limit => ?_, List.perm_insertionSort _ _,
      fun _ => ?_, fun h => absurd hdir h⟩
    · rw [FindProjectRefs_eq, if_pos hdir]
    · refine List.Pairwise.imp_of_mem ?_ (sorted_insertionSort_descOn _ _)
      intro a b ha hb hab
      exact (descOn_identifier_iff a b (hmem _ a ha) (hmem _ b hb)).mp hab
  · refine ⟨(store.filter (eligible key sortDir isAuthenticated)).insertionSort
      (ascOn ProjectRefIdentifierKey), fun limit => ?_, List.perm_insertionSort _ _,
      fun h => absurd h hdir, fun _ => ?_⟩
    · rw [FindProjectRefs_eq, if_neg hdir]
    · refine List.Pairwise.imp_of_mem ?_ (sorted_insertionSort_ascOn _ _)
      intro a b ha hb hab
      exact (ascOn_identifier_iff a b (hmem _ a ha) (hmem _ b hb)).mp hab

/-- C9: for a positive `limit`, `FindProjectRefs` answers with a page of the documents
eligible for the caller, decoded, and no error: the page and the documents left out
make up the eligible documents; the page has at most `limit` documents and leaves
none out unless it is full; with `sortDir < 0` every returned ref has
`Identifier < key`, the refs come in descending `Identifier` order and every document
left out has an identifier at most that of every returned ref; otherwise every
returned ref has `Identifier ≥ key`, the refs come in ascending order and every
document left out has an identifier at least that of every returned ref. -/
theorem FindProjectRefs_pages_by_identifier (store : db.Collection) (key : String)
    (limit sortDir : Int) (isAuthenticated : Bool) (hlimit : 0 < limit) :
    ∃ page rest : List Doc,
      FindProjectRefs none store key limit sortDir isAuthenticated =
        (page.map ProjectRef.unmarshal, none) ∧
      (page ++ rest).Perm (store.filter (eligible key sortDir isAuthenticated)) ∧
      (page.length : Int) ≤ limit ∧
      ((page.length : Int) < limit → rest = []) ∧
      (sortDir < 0 →
        (∀ r ∈ page.map ProjectRef.unmarshal, r.Identifier < key) ∧
        (page.map ProjectRef.unmarshal).Pairwise (fun a b => b.Identifier ≤ a.Identifier) ∧
        (∀ a ∈ page, ∀ b ∈ rest,
          (ProjectRef.unmarshal b).Identifier ≤ (ProjectRef.unmarshal a).Identifier)) ∧
      (¬ sortDir < 0 →
        (∀ r ∈ page.map ProjectRef.unmarshal, key ≤ r.Identifier) ∧
        (page.map ProjectRef.unmarshal).Pairwise (fun a b => a.Identifier ≤ b.Identifier) ∧
        (∀ a ∈ page, ∀ b ∈ rest,
          (ProjectRef.unmarshal a).Identifier ≤ (ProjectRef.unmarshal b).Identifier)) := by
  obtain ⟨scan, hres, hperm, hdesc, hasc⟩ := scan_sorted store key sortDir isAuthenticated
  have hsplit : scan.take limit.toNat ++ scan.drop limit.toNat = scan :=
    List.take_append_drop _ _
  have helig : ∀ x ∈ scan.take limit.toNat, eligible key sortDir isAuthenticated x = true := by
    intro x hx
    have : x ∈ scan := List.mem_of_mem_take hx
    exact (List.mem_filter.mp (hperm.mem_iff.mp this)).2
  refine ⟨scan.take limit.toNat, scan.drop limit.toNat, ?_, ?_, ?_, ?_, ?_, ?_⟩
  · rw [hres, applyLimit_pos limit hlimit]
  · rw [hsplit]
    exact hperm
  · have := List.length_take_le limit.toNat scan
    omega
  · intro h
    rw [List.length_take] at h
    apply List.drop_eq_nil_of_le
    omega
  · intro hdir
    have hp := hdesc hdir
    rw [← hsplit, List.pairwise_append] at hp
    refine ⟨?_, ?_, hp.2.2⟩
    · intro r hr
      obtain ⟨x, hx, rfl⟩ := List.mem_map.mp hr
      exact (eligible_identifier key sortDir isAuthenticated x (helig x hx)).2.1 hdir
    · rw [List.pairwise_map]
      exact hp.1
  · intro hdir
    have hp := hasc hdir
    rw [← hsplit, List.pairwise_append] at hp
    refine ⟨?_, ?_, hp.2.2⟩
    · intro r hr
      obtain ⟨x, hx, rfl⟩ := List.mem_map.mp hr
      exact (eligible_identifier key sortDir isAuthenticated x (helig x hx)).2.2 hdir
    · rw [List.pairwise_map]
      exact hp.1

theorem FindProjectRefs_publicScan (store : db.Collection) (key : String)
    (limit sortDir : Int) :
    FindProjectRefs none store key limit sortDir false =
      ((db.applyLimit limit (publicScan store key sortDir)).map ProjectRef.unmarshal, none) := by
  have hstr : ∀ x ∈ store.filter (eligible key sortDir false),
      mapGet ProjectRefIdentifierKey x = some (.str (identifierOf x)) :=
    fun x hx => (eligible_identifier key sortDir false x (List.mem_filter.mp hx).2).1
  rw [FindProjectRefs_eq, publicScan]
  by_cases hdir : sortDir < 0
  · rw [if_pos hdir, if_pos hdir]
    rw [insertionSort_congr (descOn ProjectRefIdentifierKey)
      (fun a b => identifierOf b ≤ identifierOf a) _
      (fun a ha b hb => descOn_identifier_iff a b (hstr a ha) (hstr b hb))]
  · rw [if_neg hdir, if_neg hdir]
    rw [insertionSort_congr (ascOn ProjectRefIdentifierKey)
      (fun a b => identifierOf a ≤ identifierOf b) _
      (fun a ha b hb => ascOn_identifier_iff a b (hstr a ha) (hstr b hb))]

theorem mem_applyLimit {α : Type} (limit : Int) (l : List α) (x : α)
    (h : x ∈ db.applyLimit limit l) : x ∈ l := by
  unfold db.applyLimit db.limitTo at h
  split at h
  · exact h
  · exact List.mem_of_mem_take h

theorem mem_publicScan (store : db.Collection) (key : String) (sortDir : Int) (x : Doc)
    (h : x ∈ publicScan store key sortDir) : x ∈ store ∧ eligible key sortDir false x = true := by
  unfold publicScan at h
  split at h <;>
    · rw [List.mem_insertionSort] at h
      exact List.mem_filter.mp h

/-- For a caller that is not authenticated `FindProjectRefs` never returns a ref with
`Private = true`, whatever the limit; the privacy condition is part of the query, so
for a positive `limit` the result is the first `limit` documents of the
identifier-sorted, key-bounded scan of the non-private documents. -/
theorem FindProjectRefs_public_page_of_pos (store : db.Collection) (key : String)
    (limit sortDir : Int) :
    (∀ r ∈ (FindProjectRefs none store key limit sortDir false).1, r.Private = false) ∧
    (0 < limit →
      FindProjectRefs none store key limit sortDir false =
        (publicPage store key limit sortDir, none)) := by
  refine ⟨?_, ?_⟩
  · intro r hr
    rw [FindProjectRefs_publicScan] at hr
    obtain ⟨x, hx, rfl⟩ := List.mem_map.mp hr
    exact eligible_public key sortDir x
      (mem_publicScan store key sortDir x (mem_applyLimit _ _ _ hx)).2
  · intro h
    rw [FindProjectRefs_publicScan, applyLimit_pos limit h, publicPage]

/-- With `a` public, `b` private and `c` public, a page of two from the start holds `a`
and `c` for a caller that is not authenticated: the private `b` takes no slot. -/
theorem FindProjectRefs_public_page_example :
    FindProjectRefs none storeABC "" 2 1 false = (publicPage storeABC "" 2 1, none) ∧
    FindProjectRefs none storeABC "" 2 1 false = ([refA, refC], none) ∧
    FindProjectRefs none storeABC "" 2 1 true = ([refA, refB], none) :=
  ⟨(FindProjectRefs_public_page_of_pos storeABC "" 2 1).2 (by decide), by decide, by decide⟩

/-- C8: the code at `limit = 0`. The function comment says `FindProjectRefs` returns
`limit` refs and the claim asks for the first `limit` documents of the scan of the
non-private documents, which is no document at all; the code hands `limit` to
`db.FindAll` as it is, where zero is `db.NoLimit`, and on the store of `a` (public),
`b` (private) and `c` (public) it returns both `a` and `c`. -/
theorem FindProjectRefs_limit_zero_returns_all :
    publicPage storeABC "" 0 1 = [] ∧
    FindProjectRefs none storeABC "" 0 1 false = ([refA, refC], none) ∧
    FindProjectRefs none storeABC "" 0 1 false ≠ (publicPage storeABC "" 0 1, none) := by
  have h1 : publicPage storeABC "" 0 1 = [] := by
    simp [publicPage]
  have h2 : FindProjectRefs none storeABC "" 0 1 false = ([refA, refC], none) := by decide
  refine ⟨h1, h2, ?_⟩
  rw [h1, h2]
  decide

/-- C9 at a concrete store: a page of two below `c`, descending, holds `b` then `a`;
a page of two from `b`, ascending, holds `b` then `c`. -/
theorem FindProjectRefs_pages_by_identifier_example :
    (∃ page rest : List Doc,
      FindProjectRefs none storeABC "c" 2 (-1) true = (page.map ProjectRef.unmarshal, none) ∧
      (page ++ rest).Perm (storeABC.filter (eligible "c" (-1) true)) ∧
      (page.length : Int) ≤ 2 ∧
      ((page.length : Int) < 2 → rest = []) ∧
      ((-1 : Int) < 0 →
        (∀ r ∈ page.map ProjectRef.unmarshal, r.Identifier < "c") ∧
        (page.map ProjectRef.unmarshal).Pairwise (fun a b => b.Identifier ≤ a.Identifier) ∧
        (∀ a ∈ page, ∀ b ∈ rest,
          (ProjectRef.unmarshal b).Identifier ≤ (ProjectRef.unmarshal a).Identifier)) ∧
      (¬ (-1 : Int) < 0 →
        (∀ r ∈ page.map ProjectRef.unmarshal, "c" ≤ r.Identifier) ∧
        (page.map ProjectRef.unmarshal).Pairwise (fun a b => a.Identifier ≤ b.Identifier) ∧
        (∀ a ∈ page, ∀ b ∈ rest,
          (ProjectRef.unmarshal a).Identifier ≤ (ProjectRef.unmarshal b).Identifier))) ∧
    FindProjectRefs none storeABC "c" 2 (-1) true = ([refB, refA], none) ∧
    FindProjectRefs none storeABC "b" 2 1 true = ([refB, refC], none) :=
  ⟨FindProjectRefs_pages_by_identifier storeABC "c" 2 (-1) true (by decide), by decide,
    by decide⟩

/-- C3: with a non-empty `Owner` and a non-empty `Repo`, `Location` returns no error and
the string `git@github.com:` ++ Owner ++ `/` ++ Repo ++ `.git`; a ref that agrees on
`Owner` and `Repo` gets the same location. -/
theorem Location_of_owner_and_repo (r r' : ProjectRef) (hOwner : r.Owner ≠ "")
    (hRepo : r.Repo ≠ "") :
    r.Location = ("git@github.com:" ++ r.Owner ++ "/" ++ r.Repo ++ ".git", none) ∧
    (r'.Owner = r.Owner → r'.Repo = r.Repo → r'.Location = r.Location) := by
  refine ⟨by simp [ProjectRef.Location, hOwner, hRepo], fun hO hR => ?_⟩
  simp [ProjectRef.Location, hOwner, hRepo, hO, hR]

/-- C3 at a concrete ref: owner `evergreen-ci`, repo `evergreen`. -/
theorem Location_of_owner_and_repo_example :
    refA.Location = ("git@github.com:evergreen-ci/evergreen.git", none) ∧
    (({ refA with Identifier := "other", Branch := "main" } : ProjectRef).Location =
      refA.Location) :=
  ⟨(Location_of_owner_and_repo refA refA (by decide) (by decide)).1,
    (Location_of_owner_and_repo refA { refA with Identifier := "other", Branch := "main" }
      (by decide) (by decide)).2 rfl rfl⟩

/-- C4: `Location` returns an error exactly when `Owner` is empty or `Repo` is empty,
and whenever it returns an error the returned string is empty. -/
theorem Location_error_iff (r : ProjectRef) :
    (r.Location.2 ≠ none ↔ (r.Owner = "" ∨ r.Repo = "")) ∧
    (r.Location.2 ≠ none → r.Location.1 = "") := by
  by_cases hO : r.Owner = ""
  · simp [ProjectRef.Location, hO]
  · by_cases hR : r.Repo = ""
    · simp [ProjectRef.Location, hO, hR]
    · simp [ProjectRef.Location, hO, hR]

/-- C5: for a variant that is not nil, `GetBatchTime` returns the variant's override
when it carries one and the project's `BatchTime` when it carries none; the result
depends on nothing but the variant's `BatchTime` and the project's `BatchTime`. -/
theorem GetBatchTime_override_or_default (p : ProjectRef) (v : BuildVariant) :
    (∀ x, v.BatchTime = some x → p.GetBatchTime (some v) = some x) ∧
    (v.BatchTime = none → p.GetBatchTime (some v) = some p.BatchTime) ∧
    (∀ (p' : ProjectRef) (v' : BuildVariant), p'.BatchTime = p.BatchTime →
      v'.BatchTime = v.BatchTime → p'.GetBatchTime (some v') = p.GetBatchTime (some v)) := by
  refine ⟨fun x hx => ?_, fun hn => ?_, fun p' v' hp hv => ?_⟩
  · simp [ProjectRef.GetBatchTime, hx]
  · simp [ProjectRef.GetBatchTime, hn]
  · simp only [ProjectRef.GetBatchTime, hp, hv]

/-- C4 at concrete refs: `b` has no owner, a ref with an owner and no repo has no
repo; both get an error and the empty string. -/
theorem Location_error_example :
    refB.Location = ("", some (GoError.other "No owner in project ref: b")) ∧
    ({ Owner := "evergreen-ci", Identifier := "x" } : ProjectRef).Location =
      ("", some (GoError.other "No repo in project ref: x")) ∧
    refB.Location.2 ≠ none ∧ refB.Location.1 = "" :=
  ⟨by decide, by decide, (Location_error_iff refB).1.2 (Or.inl rfl),
    (Location_error_iff refB).2 ((Location_error_iff refB).1.2 (Or.inl rfl))⟩

/-- C5 at a concrete ref: `c` has batch time 60; a variant with the override 5 gets 5,
a variant without override gets 60. -/
theorem GetBatchTime_example :
    refC.GetBatchTime (some { Name := "linux", BatchTime := some 5 }) = some 5 ∧
    refC.GetBatchTime (some { Name := "linux", BatchTime := none }) = some 60 :=
  ⟨(GetBatchTime_override_or_default refC { Name := "linux", BatchTime := some 5 }).1 5 rfl,
    (GetBatchTime_override_or_default refC { Name := "linux", BatchTime := none }).2.1 rfl⟩

end model

end evergreen
